import Mathlib

/-
Verification development for the mshx OBJ-to-MSHX mesh converter.

The geometry store and the pipeline stages (quad triangulation, attribute
deduplication, cache-locality optimisation, face-record encoding) are embedded
as executable Lean functions over exact rational coordinates; the numerically
sensitive leaf routines (Ritter bounding sphere, normal normalisation, quad
validation) are embedded over the reals, idealising IEEE float arithmetic by
exact real arithmetic.  Go panics (out-of-range slice indexing) are modelled
by Option-valued functions returning none.  Machine indices (uint32) are
modelled by Nat: no computed index in the modelled stages can underflow or
exceed 2^32 on inputs the hypotheses admit, and the single wrapping-sensitive
computation (the Morton code) takes its arguments modulo 2^32 explicitly.
-/

namespace Mshx

/-- Vertex record: position, homogeneous w, colour, and the transient
deduplication marker, mirroring the Go struct. -/
structure Vertex where
  X : ℚ
  Y : ℚ
  Z : ℚ
  W : ℚ
  A : ℚ
  R : ℚ
  G : ℚ
  B : ℚ
  flushed : Bool
deriving DecidableEq, Inhabited

/-- Normal record, mirroring the Go struct. -/
structure Normal where
  X : ℚ
  Y : ℚ
  Z : ℚ
  W : ℚ
  flushed : Bool
deriving DecidableEq, Inhabited

/-- Texture-coordinate record, mirroring the Go struct. -/
structure TextureCoord where
  U : ℚ
  V : ℚ
  W : ℚ
  flushed : Bool
deriving DecidableEq, Inhabited

/-- Face record: polygon degree, the parallel index arrays v / n / t / uv, the
resolved material, the Morton code and the transient completion marker,
mirroring the Go struct.  Index entries are Nat models of uint32 values. -/
structure Face where
  edges : Nat
  v : List Nat
  n : List Nat
  t : List Nat
  uv : List Nat
  materialID : Nat
  materialName : String
  mortonCode : Nat
  complete : Bool
deriving DecidableEq, Inhabited

/-- The geometry store: the four global arrays the pipeline stages mutate. -/
structure Store where
  vertices : List Vertex
  normals : List Normal
  textureCoords : List TextureCoord
  faces : List Face
deriving DecidableEq, Inhabited

/-- Bounding sphere, mirroring the Go struct (radius kept rational here; the
real-valued Ritter computation lives in the real-number section below). -/
structure BoundSphere where
  center : Vertex
  radius : ℚ
deriving DecidableEq, Inhabited

/-- RemoveAtIndex from the source: slices.Delete(s, index, index+1). -/
def RemoveAtIndex {α : Type} (s : List α) (index : Nat) : List α :=
  s.eraseIdx index

/-- Applies g to the entries of l at positions strictly below e, leaving later
entries untouched.  This models the Go loops for l := 0; l < edges; l++ that
rewrite one face index array; when the array length equals edges (the
well-formedness the pipeline maintains) it rewrites the whole array. -/
def mapUpTo (e : Nat) (g : Nat → Nat) (l : List Nat) : List Nat :=
  l.mapIdx fun j x => if j < e then g x else x

/-- interleaveBits from the source, on uint32 modelled as Nat mod 2^32. -/
def interleaveBits (x0 : Nat) : Nat :=
  let x := x0 % 4294967296
  let x := ((x ||| (x <<< 16)) % 4294967296) &&& 0x030000FF
  let x := ((x ||| (x <<< 8)) % 4294967296) &&& 0x0300F00F
  let x := ((x ||| (x <<< 4)) % 4294967296) &&& 0x030C30C3
  let x := ((x ||| (x <<< 2)) % 4294967296) &&& 0x09249249
  x

/-- Morton3D from the source.  interleaveBits yields values at most 0x09249249,
so the shifts by 1 and 2 stay far below 2^32 and no wrap occurs. -/
def Morton3D (x y z : Nat) : Nat :=
  interleaveBits x ||| ((interleaveBits y) <<< 1) ||| ((interleaveBits z) <<< 2)

/-- Vertex closeness test of DeDupe.  The source computes
d := math.Sqrt(dx*dx+dy*dy+dz*dz) and tests d < vT; for a nonnegative
radicand s this holds exactly when 0 < vT and s < vT*vT, which is the form
used here to stay inside exact rational arithmetic. -/
def vertexClose (vT : ℚ) (a b : Vertex) : Bool :=
  let dx := a.X - b.X
  let dy := a.Y - b.Y
  let dz := a.Z - b.Z
  decide (0 < vT) && decide (dx * dx + dy * dy + dz * dz < vT * vT)

/-- Normal closeness test of DeDupe: per-axis absolute difference below the
tolerance, as in the source. -/
def normalClose (nT : ℚ) (a b : Normal) : Bool :=
  decide (|a.X - b.X| < nT) && decide (|a.Y - b.Y| < nT) && decide (|a.Z - b.Z| < nT)

/-- Texture-coordinate closeness test of DeDupe: per-axis absolute difference
below the tolerance, as in the source. -/
def uvClose (uvT : ℚ) (a b : TextureCoord) : Bool :=
  decide (|a.U - b.U| < uvT) && decide (|a.V - b.V| < uvT)

/-- One merge rewrite of DeDupe: every face corner (position below edges)
whose index equals jFrom is redirected to iTo, across all faces. -/
def dedupeRedirect (gI : Face → List Nat) (sI : Face → List Nat → Face)
    (iTo jFrom : Nat) (faces : List Face) : List Face :=
  faces.map fun f => sI f (mapUpTo f.edges (fun x => if x = jFrom then iTo else x) (gI f))

/-- Inner j-loop of one DeDupe merge pass: j runs from i+1 to n-1; a close pair
redirects face references from j to i, marks entry j flushed and counts it. -/
def dedupeInner {α : Type} [Inhabited α] (close : α → α → Bool) (setFl : α → α)
    (gI : Face → List Nat) (sI : Face → List Nat → Face) (n i : Nat)
    (st : List α × List Face × Nat) : List α × List Face × Nat :=
  (List.range' (i + 1) (n - (i + 1))).foldl
    (fun st j =>
      if close (st.1.getD i default) (st.1.getD j default) then
        (st.1.set j (setFl (st.1.getD j default)), dedupeRedirect gI sI i j st.2.1, st.2.2 + 1)
      else st) st

/-- Outer i-loop of one DeDupe merge pass.  skipAt is the guard of the
continue statement: for normals and texture coordinates the source skips
already-flushed entries; for vertices the source tests the negation
(a faithful rendering of the inverted guard in the vertex loop). -/
def dedupeMerge {α : Type} [Inhabited α] (skipAt : α → Bool) (close : α → α → Bool)
    (setFl : α → α) (gI : Face → List Nat) (sI : Face → List Nat → Face)
    (attrs0 : List α) (faces0 : List Face) : List α × List Face × Nat :=
  let n := attrs0.length
  (List.range n).foldl
    (fun st i =>
      if skipAt (st.1.getD i default) then st
      else dedupeInner close setFl gI sI n i st)
    (attrs0, faces0, 0)

/-- One decrement rewrite of DeDupe compaction: every face corner (position
below edges) whose index exceeds i is decremented, across all faces. -/
def dedupeShift (gI : Face → List Nat) (sI : Face → List Nat → Face)
    (i : Nat) (faces : List Face) : List Face :=
  faces.map fun f => sI f (mapUpTo f.edges (fun x => if x > i then x - 1 else x) (gI f))

/-- Compaction loop of DeDupe: removes each flushed entry (staying at the same
position, as the source i-- does) and decrements the face indices above it.
The loop is driven by structural fuel; fuel equal to the array length is
exactly enough, since each step decreases length minus position by one. -/
def dedupeCompact {α : Type} [Inhabited α] (isFl : α → Bool)
    (gI : Face → List Nat) (sI : Face → List Nat → Face) :
    Nat → Nat → List α → List Face → List α × List Face
  | 0, _, attrs, faces => (attrs, faces)
  | fuel + 1, i, attrs, faces =>
    if i < attrs.length then
      if isFl (attrs.getD i default) then
        dedupeCompact isFl gI sI fuel i (RemoveAtIndex attrs i) (dedupeShift gI sI i faces)
      else dedupeCompact isFl gI sI fuel (i + 1) attrs faces
    else (attrs, faces)

/-- Accessor and writer of the vertex-index class of a face. -/
def vGet (f : Face) : List Nat := f.v

/-- Writer of the vertex-index class. -/
def vSet (f : Face) (l : List Nat) : Face := { f with v := l }

/-- Accessor of the normal-index class. -/
def nGet (f : Face) : List Nat := f.n

/-- Writer of the normal-index class. -/
def nSet (f : Face) (l : List Nat) : Face := { f with n := l }

/-- Accessor of the uv-index class. -/
def uvGet (f : Face) : List Nat := f.uv

/-- Writer of the uv-index class. -/
def uvSet (f : Face) (l : List Nat) : Face := { f with uv := l }

/-- Marker accessor of a vertex entry. -/
def vFlushed (a : Vertex) : Bool := a.flushed

/-- Marker writer of a vertex entry. -/
def vFlush (a : Vertex) : Vertex := { a with flushed := true }

/-- The inverted continue guard of the vertex merge loop in the source. -/
def vSkip (a : Vertex) : Bool := !a.flushed

/-- Marker accessor of a normal entry. -/
def nFlushed (a : Normal) : Bool := a.flushed

/-- Marker writer of a normal entry. -/
def nFlush (a : Normal) : Normal := { a with flushed := true }

/-- Marker accessor of a texture-coordinate entry. -/
def tcFlushed (a : TextureCoord) : Bool := a.flushed

/-- Marker writer of a texture-coordinate entry. -/
def tcFlush (a : TextureCoord) : TextureCoord := { a with flushed := true }

/-- One attribute class of DeDupe: the quadratic merge pass followed by the
compaction pass (run with its exact fuel).  Returns the compacted attribute
array, the updated faces and the duplicate count. -/
def dedupeStage {α : Type} [Inhabited α] (skipAt : α → Bool) (close : α → α → Bool)
    (fl : α → Bool) (setFl : α → α)
    (gI : Face → List Nat) (sI : Face → List Nat → Face)
    (attrs : List α) (faces : List Face) : List α × List Face × Nat :=
  let m := dedupeMerge skipAt close setFl gI sI attrs faces
  let c := dedupeCompact fl gI sI m.1.length 0 m.1 m.2.1
  (c.1, c.2, m.2.2)

/-- DeDupe from the source: for each attribute class in order (vertices,
normals, texture coordinates), a quadratic merge pass followed by a
compaction pass.  Returns the updated store and the three duplicate counts.
The vertex merge guard is the negated marker test, as in the source. -/
def DeDupe (vT nT uvT : ℚ) (s : Store) : Store × Nat × Nat × Nat :=
  let sv := dedupeStage vSkip (vertexClose vT) vFlushed vFlush vGet vSet
    s.vertices s.faces
  let sn := dedupeStage nFlushed (normalClose nT) nFlushed nFlush nGet nSet
    s.normals sv.2.1
  let su := dedupeStage tcFlushed (uvClose uvT) tcFlushed tcFlush uvGet uvSet
    s.textureCoords sn.2.1
  ({ vertices := sv.1, normals := sn.1, textureCoords := su.1, faces := su.2.1 },
   sv.2.2, sn.2.2, su.2.2)

/-- ConvertQuadToTriangles from the source.  Reads corners 0, 2, 3 of the
v / n / uv arrays (none models the Go panic on a short array), truncates the
face in place to degree 3 and builds the appended triangle.  When the tangent
array has length 4 the source writes index 0 of a freshly allocated
zero-length slice, an index-out-of-range panic, modelled as none. -/
def ConvertQuadToTriangles (f : Face) : Option (Face × Face) := do
  let v0 ← f.v[0]?
  let v2 ← f.v[2]?
  let v3 ← f.v[3]?
  let n0 ← f.n[0]?
  let n2 ← f.n[2]?
  let n3 ← f.n[3]?
  let uv0 ← f.uv[0]?
  let uv2 ← f.uv[2]?
  let uv3 ← f.uv[3]?
  if f.t.length = 4 then none
  else
    let f1 : Face :=
      { f with
        edges := 3
        v := RemoveAtIndex f.v 3
        n := RemoveAtIndex f.n 3
        uv := RemoveAtIndex f.uv 3 }
    let newFace : Face :=
      { edges := 3
        v := [v0, v2, v3]
        n := [n0, n2, n3]
        t := []
        uv := [uv0, uv2, uv3]
        materialID := f.materialID
        materialName := f.materialName
        mortonCode := 0
        complete := false }
    some (f1, newFace)

/-- Number of degree-4 faces in a list. -/
def countQuads (l : List Face) : Nat :=
  (l.filter fun f => f.edges == 4).length

/-- The face-walking loop of main in unconditional-triangulation mode: the
cursor walks the array, a quad is truncated in place and its second half
appended at the end of the array (hence at the end of the pending queue),
and appended triangles are themselves visited later.  Structural fuel
2 * quads + length strictly bounds the number of iterations. -/
def triangulateLoop : Nat → List Face → List Face → Option (List Face)
  | _, done, [] => some done
  | 0, _, _ :: _ => none
  | fuel + 1, done, f :: rest =>
    if f.edges = 4 then
      match ConvertQuadToTriangles f with
      | none => none
      | some p => triangulateLoop fuel (done ++ [p.1]) (rest ++ [p.2])
    else triangulateLoop fuel (done ++ [f]) rest

/-- The quad-triangulation stage over the store. -/
def TriangulateQuads (s : Store) : Option Store :=
  match triangulateLoop (2 * countQuads s.faces + s.faces.length) [] s.faces with
  | none => none
  | some fs => some { s with faces := fs }

/-- Go conversion uint32(x) of a nonnegative float: truncation toward zero,
here floor of a rational clamped to Nat (the conversion is unspecified in Go
for negative or overflowing values; those are clamped to 0 here and never
arise under the hypotheses used below). -/
def quantize1024 (x : ℚ) : Nat :=
  (⌊x * 1024⌋).toNat

/-- Morton-code assignment loop of OptimiseMesh: per face, the centroid of
its corner positions, normalised into the bounding-sphere extent box and
quantised to 10 bits per axis, interleaved into the mortonCode field. -/
def assignMorton (bs : BoundSphere) (s : Store) : Store :=
  let e0 := bs.center.X - bs.radius
  let e1 := bs.center.Y - bs.radius
  let e2 := bs.center.Z - bs.radius
  let e3 := bs.center.X + bs.radius
  let e4 := bs.center.Y + bs.radius
  let e5 := bs.center.Z + bs.radius
  { s with faces := s.faces.map fun f =>
      let c := (List.range f.edges).foldl
        (fun (c : ℚ × ℚ × ℚ) j =>
          let vtx := s.vertices.getD (f.v.getD j 0) default
          (c.1 + vtx.X, c.2.1 + vtx.Y, c.2.2 + vtx.Z)) (0, 0, 0)
      let cx := c.1 / (f.edges : ℚ)
      let cy := c.2.1 / (f.edges : ℚ)
      let cz := c.2.2 / (f.edges : ℚ)
      let cx := (cx - e0) / (e3 - e0)
      let cy := (cy - e1) / (e4 - e1)
      let cz := (cz - e2) / (e5 - e2)
      { f with mortonCode := Morton3D (quantize1024 cx) (quantize1024 cy) (quantize1024 cz) } }

/-- Comparison key of the face sort: ascending mortonCode. -/
def mortonLE (a b : Face) : Prop :=
  a.mortonCode ≤ b.mortonCode

instance : DecidableRel mortonLE := fun a b => Nat.decLe a.mortonCode b.mortonCode

/-- The Go standard library contract of slices.SortFunc as documented: the
result is a permutation of the input that is sorted under the comparison; the
documentation explicitly does not guarantee stability, so any conforming
permutation is an admissible behaviour. -/
def SortFuncSpec (l l' : List Face) : Prop :=
  l'.Perm l ∧ l'.Sorted mortonLE

/-- Deterministic executable model of the face sort: a sort conforming to the
slices.SortFunc contract (which fixes the multiset and the key order but not
the order of faces with equal Morton codes). -/
def sortFacesByMorton (faces : List Face) : List Face :=
  List.insertionSort mortonLE faces

/-- State of one attribute-remapping pass of OptimiseMesh. -/
structure RemapState (α : Type) where
  attrs : List α
  faces : List Face
  use : List (List Nat)
  newAttrs : List α
  curIndex : Nat

/-- The face-use table of OptimiseMesh: for each attribute index, the list of
faces (by position) referencing it, built by walking faces in order and
corners up to the face degree. -/
def buildFaceUse (gI : Face → List Nat) (faces : List Face) (len : Nat) : List (List Nat) :=
  (List.range faces.length).foldl
    (fun u i =>
      let f := faces.getD i default
      (List.range f.edges).foldl
        (fun u j =>
          let x := (gI f).getD j 0
          u.set x (u.getD x [] ++ [i])) u) (List.replicate len [])

/-- The redirect loop of one first-touch event: every not-yet-complete face
recorded as using attribute vidx has its corners equal to vidx rewritten to
the next output index.  (The Go code copies the Face struct but writes
through the shared index-slice backing array, so the write is visible in the
faces array; this models that in-place effect.) -/
def remapUses (gI : Face → List Nat) (sI : Face → List Nat → Face)
    (uses : List Nat) (vidx cur : Nat) (faces : List Face) : List Face :=
  uses.foldl
    (fun fs k =>
      let face := fs.getD k default
      if face.complete then fs
      else fs.set k (sI face (mapUpTo face.edges (fun x => if x = vidx then cur else x) (gI face))))
    faces

/-- Processing of one corner (face i, corner j) in a remap pass: a corner
whose current index is unflushed triggers a first-touch event (redirect, use
clearing, append to the rebuilt array, flush, index increment). -/
def remapCorner {α : Type} [Inhabited α] (fl : α → Bool) (setFl : α → α)
    (gI : Face → List Nat) (sI : Face → List Nat → Face)
    (i j : Nat) (st : RemapState α) : RemapState α :=
  let f := st.faces.getD i default
  let vidx := (gI f).getD j 0
  let a := st.attrs.getD vidx default
  if fl a then st
  else
    { attrs := st.attrs.set vidx (setFl a),
      faces := remapUses gI sI (st.use.getD vidx []) vidx st.curIndex st.faces,
      use := st.use.set vidx [],
      newAttrs := st.newAttrs ++ [a],
      curIndex := st.curIndex + 1 }

/-- Marks a face as processed. -/
def setComplete (f : Face) : Face :=
  { f with complete := true }

/-- Processing of one face in a remap pass: its corners in order (the degree
is constant during the pass), then the completion mark. -/
def remapFace {α : Type} [Inhabited α] (fl : α → Bool) (setFl : α → α)
    (gI : Face → List Nat) (sI : Face → List Nat → Face)
    (i : Nat) (st : RemapState α) : RemapState α :=
  let e := (st.faces.getD i default).edges
  let st1 := (List.range e).foldl (fun st j => remapCorner fl setFl gI sI i j st) st
  { st1 with faces := st1.faces.set i (setComplete (st1.faces.getD i default)) }

/-- One full attribute-remapping pass of OptimiseMesh: completion flags
reset, use table built, faces walked in order, and the attribute array
replaced by the rebuilt first-touch-ordered array. -/
def remapPass {α : Type} [Inhabited α] (fl : α → Bool) (setFl : α → α)
    (gI : Face → List Nat) (sI : Face → List Nat → Face)
    (attrs : List α) (faces : List Face) : List α × List Face :=
  let faces0 := faces.map fun f => { f with complete := false }
  let st0 : RemapState α :=
    { attrs := attrs, faces := faces0, use := buildFaceUse gI faces0 attrs.length,
      newAttrs := [], curIndex := 0 }
  let stF := (List.range faces0.length).foldl (fun st i => remapFace fl setFl gI sI i st) st0
  (stF.newAttrs, stF.faces)

/-- OptimiseMesh from the source: Morton codes from the bounding sphere
extents, the face sort, then the three remap passes (vertices, normals,
texture coordinates) in order. -/
def OptimiseMesh (bs : BoundSphere) (s : Store) : Store :=
  let s1 := assignMorton bs s
  let fsSorted := sortFacesByMorton s1.faces
  let pv := remapPass vFlushed vFlush vGet vSet s1.vertices fsSorted
  let pn := remapPass nFlushed nFlush nGet nSet s1.normals pv.2
  let pu := remapPass tcFlushed tcFlush uvGet uvSet s1.textureCoords pn.2
  { vertices := pv.1, normals := pn.1, textureCoords := pu.1, faces := pu.2 }

/-- Little- or big-endian byte serialisation of a uint32 value. -/
def u32bytes (le : Bool) (x : Nat) : List Nat :=
  let b := [x % 256, x / 256 % 256, x / 65536 % 256, x / 16777216 % 256]
  if le then b else b.reverse

/-- The per-face index-array loop of WriteOutput: writes entries 0 to
edges-1 of the given index array; the Go loop indexes the array at every
j < edges regardless of the array length, so a shorter array is an
index-out-of-range panic, modelled as none. -/
def writeIdxArray (le : Bool) (edges : Nat) (idx : List Nat) : Option (List Nat) :=
  if edges ≤ idx.length then some ((idx.take edges).flatMap (u32bytes le))
  else none

/-- One face record of WriteOutput: the degree byte, the vertex-, normal- and
uv-index arrays each iterated up to the degree, then the material index. -/
def writeFaceRecord (le : Bool) (f : Face) : Option (List Nat) := do
  let vB ← writeIdxArray le f.edges f.v
  let nB ← writeIdxArray le f.edges f.n
  let uvB ← writeIdxArray le f.edges f.uv
  some ([f.edges % 256] ++ vB ++ nB ++ uvB ++ u32bytes le f.materialID)

/-- The face-record section of WriteOutput. -/
def writeFaceRecords (le : Bool) (faces : List Face) : Option (List Nat) :=
  faces.foldl
    (fun acc f => do
      let bs ← acc
      let fb ← writeFaceRecord le f
      some (bs ++ fb))
    (some [])

/-- Well-formedness of a face as the pipeline maintains it: every populated
per-corner array has length equal to the degree, and the tangent array is
never populated by this pipeline version. -/
def FaceWF (f : Face) : Prop :=
  f.v.length = f.edges ∧ f.n.length = f.edges ∧ f.uv.length = f.edges ∧ f.t = []

/-- Store well-formedness: every face is well-formed. -/
def StoreWF (s : Store) : Prop :=
  ∀ f ∈ s.faces, FaceWF f

/-- Index validity of a face against the three attribute array lengths. -/
def FaceValid (nv nn nu : Nat) (f : Face) : Prop :=
  (∀ x ∈ f.v, x < nv) ∧ (∀ x ∈ f.n, x < nn) ∧ (∀ x ∈ f.uv, x < nu)

/-- The stage-boundary invariant of the spec: every entry of every face
index array is a valid index into the corresponding attribute array. -/
def StoreValid (s : Store) : Prop :=
  ∀ f ∈ s.faces,
    FaceValid s.vertices.length s.normals.length s.textureCoords.length f

/-- At every stage boundary all transient flushed markers are clear. -/
def StoreUnflushed (s : Store) : Prop :=
  (∀ a ∈ s.vertices, a.flushed = false) ∧ (∀ a ∈ s.normals, a.flushed = false) ∧
    (∀ a ∈ s.textureCoords, a.flushed = false)

instance (f : Face) : Decidable (FaceWF f) := by
  unfold FaceWF; infer_instance

instance (s : Store) : Decidable (StoreWF s) := by
  unfold StoreWF; infer_instance

instance (nv nn nu : Nat) (f : Face) : Decidable (FaceValid nv nn nu f) := by
  unfold FaceValid; infer_instance

instance (s : Store) : Decidable (StoreValid s) := by
  unfold StoreValid; infer_instance

instance (s : Store) : Decidable (StoreUnflushed s) := by
  unfold StoreUnflushed; infer_instance

/-- Fields of a face that index rewriting leaves untouched. -/
def SameShape (f0 f1 : Face) : Prop :=
  f1.edges = f0.edges ∧ f1.materialID = f0.materialID ∧ f1.materialName = f0.materialName ∧
    f1.t = f0.t ∧ f1.mortonCode = f0.mortonCode ∧ f1.complete = f0.complete

/-- Face-frame relation of one attribute-class pass: every face of the result
is the corresponding input face with only its class index array replaced by
one of equal length. -/
def FrameTo (gI : Face → List Nat) (sI : Face → List Nat → Face)
    (faces0 faces1 : List Face) : Prop :=
  faces1.length = faces0.length ∧
  ∀ k, k < faces0.length →
    ∃ l, faces1.getD k default = sI (faces0.getD k default) l ∧
      l.length = (gI (faces0.getD k default)).length

/-- Every class corner of every face is a valid index to an unflushed
attribute entry. -/
def PointsOK {α : Type} [Inhabited α] (fl : α → Bool) (gI : Face → List Nat)
    (attrs : List α) (faces : List Face) : Prop :=
  ∀ k, k < faces.length → ∀ x ∈ gI (faces.getD k default),
    x < attrs.length ∧ fl (attrs.getD x default) = false

/-- The class index array of every face has length equal to its degree. -/
def FacesWFg (gI : Face → List Nat) (faces : List Face) : Prop :=
  ∀ k, k < faces.length →
    (gI (faces.getD k default)).length = (faces.getD k default).edges

instance : IsTotal Face mortonLE :=
  ⟨fun a b => Nat.le_total a.mortonCode b.mortonCode⟩

instance : IsTrans Face mortonLE :=
  ⟨fun _ _ _ => Nat.le_trans⟩

/-- A plain vertex at the origin, as the parser produces it (w = 1, opaque
white colour, marker clear). -/
def vA : Vertex :=
  ⟨0, 0, 0, 1, 1, 1, 1, 1, false⟩

/-- A store holding the same vertex twice (Euclidean distance 0, far below
any positive tolerance) and nothing else. -/
def storeDupVerts : Store :=
  { vertices := [vA, vA], normals := [], textureCoords := [], faces := [] }

/-- A triangle face of a mesh parsed without normals: its normal-index array
is empty, as the parser leaves it. -/
def faceTriNoNormals : Face :=
  ⟨3, [0, 1, 2], [], [], [0, 1, 2], 0, "", 0, false⟩

/-- A triangle face with all three index arrays populated. -/
def faceTriFull : Face :=
  ⟨3, [0, 1, 2], [0, 1, 2], [], [0, 1, 2], 0, "", 0, false⟩

/-- A quad face whose tangent array is populated with 4 entries. -/
def quadWithTangents : Face :=
  ⟨4, [0, 1, 2, 3], [4, 5, 6, 7], [8, 9, 10, 11], [12, 13, 14, 15], 5, "m", 0, false⟩

/-- The same quad face without tangents, as this pipeline always produces. -/
def quadNoTangents : Face :=
  { quadWithTangents with t := [] }

/-- A triangle face with Morton code 7. -/
def faceM0 : Face :=
  ⟨3, [0, 1, 2], [0, 1, 2], [], [0, 1, 2], 0, "", 7, false⟩

/-- A face distinct from faceM0 (different material) with the same Morton
code. -/
def faceM1 : Face :=
  { faceM0 with materialID := 1 }

/-- A plain normal pointing along z, marker clear. -/
def nrm0 : Normal :=
  ⟨0, 0, 1, 0, false⟩

/-- A texture coordinate at the origin, marker clear. -/
def tc0 : TextureCoord :=
  ⟨0, 0, 0, false⟩

/-- A store with three vertices, three normals, three texture coordinates
and one fully indexed triangle: well-formed, index-valid, markers clear. -/
def stFull : Store :=
  { vertices := [vA, vA, vA], normals := [nrm0, nrm0, nrm0],
    textureCoords := [tc0, tc0, tc0], faces := [faceTriFull] }

/-- A triangle whose vertex corners walk the attribute array in the order
1, 2, 0: the third first-touch event collides with an already remapped
corner value. -/
def faceC2 : Face :=
  ⟨3, [1, 2, 0], [0, 1, 2], [], [0, 1, 2], 0, "", 0, false⟩

/-- The store exercising the remap collision: three vertices and the single
triangle with corner order 1, 2, 0. -/
def stC2 : Store :=
  { vertices := [vA, vA, vA], normals := [nrm0, nrm0, nrm0],
    textureCoords := [tc0, tc0, tc0], faces := [faceC2] }

/-- A bounding sphere whose extent box is the unit cube from the origin, so
the all-zero centroid of stC2's face lands exactly on the box minimum and
quantises to Morton code 0. -/
def bsC2 : BoundSphere :=
  { center := ⟨1, 1, 1, 1, 1, 1, 1, 1, false⟩, radius := 1 }

/-- Claim-side description of the optimizer's remap (not the code): the
original vertex indices in order of first reference, walking faces in order
and corners up to the degree. -/
def firstTouchOrder (faces : List Face) : List Nat :=
  faces.foldl
    (fun L f =>
      (List.range f.edges).foldl
        (fun L j => if (f.v.getD j 0) ∈ L then L else L ++ [f.v.getD j 0]) L) []

/-- Claim-side description of the optimizer's remap (not the code): every
corner is replaced by the first-touch rank of the attribute it references,
so the i-th first-referenced attribute receives new index i at every corner
referencing it. -/
def specFirstTouchRemap (faces : List Face) : List (List Nat) :=
  faces.map fun f => f.v.map fun x => (firstTouchOrder faces).indexOf x

/-- Flag relation maintained over one attribute array by a merge pass:
entries are either untouched or marked. -/
def FlagsOf {α : Type} [Inhabited α] (setFl : α → α) (attrs0 attrs : List α) : Prop :=
  attrs.length = attrs0.length ∧
  ∀ k, k < attrs0.length →
    attrs.getD k default = attrs0.getD k default ∨
    attrs.getD k default = setFl (attrs0.getD k default)

/-- Loop invariant of one attribute-remapping pass of OptimiseMesh, relative
to the initial attribute array attrs0 (all entries unflushed) and the initial
(completion-reset) face list faces0; i is the outer cursor.  obs observes
every face field the pass must leave untouched. -/
structure RInv {α ObsT : Type} [Inhabited α] (fl : α → Bool) (gI : Face → List Nat)
    (obs : Face → ObsT) (attrs0 : List α) (faces0 : List Face)
    (i : Nat) (st : RemapState α) : Prop where
  lenA : st.attrs.length = attrs0.length
  lenF : st.faces.length = faces0.length
  lenU : st.use.length = attrs0.length
  curNew : st.curIndex = st.newAttrs.length
  curCount : st.curIndex = (st.attrs.filter fl).length
  useBound : ∀ x k, k ∈ st.use.getD x [] → k < faces0.length
  compIff : ∀ k, k < faces0.length → ((st.faces.getD k default).complete = true ↔ k < i)
  compLT : ∀ k, k < faces0.length → (st.faces.getD k default).complete = true →
    ∀ x ∈ gI (st.faces.getD k default), x < st.curIndex
  main : ∀ k, k < faces0.length → ∀ x ∈ gI (st.faces.getD k default),
    x < st.curIndex ∨ (x < attrs0.length ∧ fl (st.attrs.getD x default) = false ∧
      k ∈ st.use.getD x [])
  wfg : ∀ k, k < faces0.length →
    (gI (st.faces.getD k default)).length = (st.faces.getD k default).edges
  edgesPres : ∀ k, k < faces0.length →
    (st.faces.getD k default).edges = (faces0.getD k default).edges
  newMem : ∀ a ∈ st.newAttrs, a ∈ attrs0
  attrOrig : ∀ x, x < attrs0.length → fl (st.attrs.getD x default) = false →
    st.attrs.getD x default = attrs0.getD x default
  obsPres : ∀ k, k < faces0.length →
    obs (st.faces.getD k default) = obs (faces0.getD k default)

/-- Vertex of bounds.go in exact real arithmetic (the float32/float64
round-trips of the source become exact operations). -/
structure VertexR where
  X : ℝ
  Y : ℝ
  Z : ℝ
  W : ℝ
  A : ℝ
  R : ℝ
  G : ℝ
  B : ℝ

instance : Inhabited VertexR := ⟨⟨0, 0, 0, 0, 0, 0, 0, 0⟩⟩

/-- Distance from bounds.go: the Euclidean distance between two points. -/
noncomputable def Distance (a b : VertexR) : ℝ :=
  Real.sqrt ((a.X - b.X) * (a.X - b.X) + (a.Y - b.Y) * (a.Y - b.Y) +
    (a.Z - b.Z) * (a.Z - b.Z))

/-- FarthestPoint from bounds.go: the point of maximal distance from the
reference, starting from the zero vertex at sentinel distance -1. -/
noncomputable def FarthestPoint (points : List VertexR) (ref : VertexR) : VertexR :=
  (points.foldl
    (fun (st : VertexR × ℝ) p =>
      if Distance ref p > st.2 then (p, Distance ref p) else st)
    (⟨0, 0, 0, 0, 0, 0, 0, 0⟩, -1)).1

/-- One iteration of the expansion loop of RitterBoundingSphere: a point
outside the current sphere grows it to the smallest sphere containing both
the old sphere and the point. -/
noncomputable def ritterStep (st : VertexR × ℝ) (p : VertexR) : VertexR × ℝ :=
  let dist := Distance st.1 p
  if dist > st.2 then
    let newRadius := (st.2 + dist) / 2
    let ratio := (newRadius - st.2) / dist
    (⟨st.1.X + (p.X - st.1.X) * ratio, st.1.Y + (p.Y - st.1.Y) * ratio,
      st.1.Z + (p.Z - st.1.Z) * ratio, 1, 0, 0, 0, 0⟩, newRadius)
  else st

/-- RitterBoundingSphere from bounds.go: the degenerate sphere on the empty
set, otherwise the two farthest-point probes, the initial diameter sphere
and the expansion sweep. -/
noncomputable def RitterBoundingSphere (points : List VertexR) : VertexR × ℝ :=
  if points.length = 0 then (⟨0, 0, 0, 0, 0, 0, 0, 0⟩, 0)
  else
    let p0 := points.getD 0 default
    let p1 := FarthestPoint points p0
    let p2 := FarthestPoint points p1
    let center : VertexR :=
      ⟨(p1.X + p2.X) / 2, (p1.Y + p2.Y) / 2, (p1.Z + p2.Z) / 2, 1, 0, 0, 0, 0⟩
    let radius := Distance p1 p2 / 2
    points.foldl ritterStep (center, radius)

/-- Normal of main.go in exact real arithmetic. -/
structure NormalR where
  X : ℝ
  Y : ℝ
  Z : ℝ
  W : ℝ

/-- The squared-sum Euclidean length of a stored normal. -/
noncomputable def normalLenR (n : NormalR) : ℝ :=
  Real.sqrt (n.X * n.X + n.Y * n.Y + n.Z * n.Z)

/-- normalize from main.go: divide each component by the Euclidean length
computed before any write. -/
noncomputable def normalize (n : NormalR) : NormalR :=
  let length := Real.sqrt (n.X * n.X + n.Y * n.Y + n.Z * n.Z)
  { n with X := n.X / length, Y := n.Y / length, Z := n.Z / length }

/-- crossProduct from main.go (the source's parameter by is spelled byy:
by is reserved). -/
def crossProduct (ax ay az bx byy bz : ℝ) : ℝ × ℝ × ℝ :=
  (ay * bz - az * byy, az * bx - ax * bz, ax * byy - ay * bx)

/-- dotProduct from main.go. -/
def dotProduct (ax ay az bx byy bz : ℝ) : ℝ :=
  ax * bx + ay * byy + az * bz

/-- crossProductZ from main.go. -/
def crossProductZ (ax ay bx byy : ℝ) : ℝ :=
  ax * byy - ay * bx

/-- isConvex from main.go as a predicate: the four edge-to-edge cross-product
z-components around the quad all strictly positive or all strictly
negative. -/
def isConvex (ax ay bx byy cx cy dx dy : ℝ) : Prop :=
  let c1 := crossProductZ (bx - ax) (byy - ay) (cx - bx) (cy - byy)
  let c2 := crossProductZ (cx - bx) (cy - byy) (dx - cx) (dy - cy)
  let c3 := crossProductZ (dx - cx) (dy - cy) (ax - dx) (ay - dy)
  let c4 := crossProductZ (ax - dx) (ay - dy) (bx - ax) (byy - ay)
  (c1 > 0 ∧ c2 > 0 ∧ c3 > 0 ∧ c4 > 0) ∨ (c1 < 0 ∧ c2 < 0 ∧ c3 < 0 ∧ c4 < 0)

/-- ValidateQuad from main.go, with the four corner positions resolved: the
quad passes when the planarity check (absolute dot product of the two
normalised cross products not below 0.999) does not fail and the convexity
check passes. -/
noncomputable def ValidateQuadOK (p0 p1 p2 p3 : VertexR) : Prop :=
  let n1 := crossProduct (p1.X - p0.X) (p1.Y - p0.Y) (p1.Z - p0.Z)
    (p2.X - p0.X) (p2.Y - p0.Y) (p2.Z - p0.Z)
  let n2 := crossProduct (p2.X - p0.X) (p2.Y - p0.Y) (p2.Z - p0.Z)
    (p3.X - p0.X) (p3.Y - p0.Y) (p3.Z - p0.Z)
  let len1 := Real.sqrt (n1.1 * n1.1 + n1.2.1 * n1.2.1 + n1.2.2 * n1.2.2)
  let len2 := Real.sqrt (n2.1 * n2.1 + n2.2.1 * n2.2.1 + n2.2.2 * n2.2.2)
  let dot := dotProduct (n1.1 / len1) (n1.2.1 / len1) (n1.2.2 / len1)
    (n2.1 / len2) (n2.2.1 / len2) (n2.2.2 / len2)
  ¬ |dot| < 0.999 ∧ isConvex p0.X p0.Y p1.X p1.Y p2.X p2.Y p3.X p3.Y

/-- Claim-side description (not the code): the unit normal of a triangle via
the cross product of its two edges from the first corner. -/
noncomputable def triangleUnitNormal (p q r : VertexR) : ℝ × ℝ × ℝ :=
  let n := crossProduct (q.X - p.X) (q.Y - p.Y) (q.Z - p.Z)
    (r.X - p.X) (r.Y - p.Y) (r.Z - p.Z)
  let len := Real.sqrt (n.1 * n.1 + n.2.1 * n.2.1 + n.2.2 * n.2.2)
  (n.1 / len, n.2.1 / len, n.2.2 / len)

/-- Claim-side description (not the code): the planarity test fails exactly
when the absolute dot product of the unit normals of triangles (v0,v1,v2)
and (v0,v2,v3) is below 0.999. -/
noncomputable def specPlanarFails (p0 p1 p2 p3 : VertexR) : Prop :=
  |dotProduct (triangleUnitNormal p0 p1 p2).1 (triangleUnitNormal p0 p1 p2).2.1
    (triangleUnitNormal p0 p1 p2).2.2 (triangleUnitNormal p0 p2 p3).1
    (triangleUnitNormal p0 p2 p3).2.1 (triangleUnitNormal p0 p2 p3).2.2| < 0.999

/-- Claim-side description (not the code): the convexity test fails exactly
when the four edge-to-edge cross-product z-components in the XY projection
do not all share the same strict sign. -/
def specConvexFails (p0 p1 p2 p3 : VertexR) : Prop :=
  ¬ isConvex p0.X p0.Y p1.X p1.Y p2.X p2.Y p3.X p3.Y

/-- The positions of a real vertex as a Euclidean vector. -/
noncomputable def toE (v : VertexR) : EuclideanSpace ℝ (Fin 3) :=
  ![v.X, v.Y, v.Z]

/-- Invariant propagation along a foldl over a contiguous index range. -/
theorem foldl_range'_inv {σ : Type _} (step : σ → Nat → σ) (Q : Nat → σ → Prop) :
    ∀ (m s : Nat) (st : σ), Q s st →
      (∀ i stx, s ≤ i → i < s + m → Q i stx → Q (i + 1) (step stx i)) →
      Q (s + m) ((List.range' s m).foldl step st) := by
  intro m
  induction m with
  | zero => intro s st h _; simpa using h
  | succ m ih =>
    intro s st h hstep
    rw [List.range'_succ]
    have h1 : Q (s + 1) (step st s) := hstep s st le_rfl (by omega) h
    have h2 := ih (s + 1) (step st s) h1 (fun i stx hi hi2 => hstep i stx (by omega) (by omega))
    have he : s + 1 + m = s + (m + 1) := by omega
    rw [he] at h2
    exact h2

/-- Invariant propagation along a foldl over List.range. -/
theorem foldl_range_inv {σ : Type _} (step : σ → Nat → σ) (Q : Nat → σ → Prop)
    (n : Nat) (st : σ) (h0 : Q 0 st)
    (hstep : ∀ i stx, i < n → Q i stx → Q (i + 1) (step stx i)) :
    Q n ((List.range n).foldl step st) := by
  rw [List.range_eq_range']
  have := foldl_range'_inv step Q n 0 st h0 (fun i stx _ hi hq => hstep i stx (by omega) hq)
  simpa using this

/-- Invariant propagation along a foldl over an arbitrary list. -/
theorem foldl_mem_inv {σ α : Type _} (step : σ → α → σ) (P : σ → Prop) :
    ∀ (l : List α) (st : σ), P st → (∀ stx a, a ∈ l → P stx → P (step stx a)) →
      P (l.foldl step st) := by
  intro l
  induction l with
  | nil => intro st h _; exact h
  | cons a l ih =>
    intro st h hstep
    exact ih (step st a) (hstep st a (by simp) h)
      (fun stx b hb hp => hstep stx b (by simp [hb]) hp)

/-- getD at an in-range position is the element there. -/
theorem getD_lt {α : Type _} {l : List α} {k : Nat} (h : k < l.length) (d : α) :
    l.getD k d = l[k] := by
  simp [List.getD_eq_getElem?_getD, List.getElem?_eq_getElem h]

/-- getD past the end is the default. -/
theorem getD_ge {α : Type _} {l : List α} {k : Nat} (h : l.length ≤ k) (d : α) :
    l.getD k d = d := by
  simp [List.getD_eq_getElem?_getD, List.getElem?_eq_none h]

/-- On a list not longer than the position bound, mapUpTo is a plain map. -/
theorem mapUpTo_eq_map (e : Nat) (g : Nat → Nat) (l : List Nat) (h : l.length ≤ e) :
    mapUpTo e g l = l.map g := by
  apply List.ext_getElem?
  intro j
  simp only [mapUpTo, List.getElem?_mapIdx, List.getElem?_map]
  cases hj : l[j]? with
  | none => rfl
  | some x =>
    obtain ⟨hlt, _⟩ := List.getElem?_eq_some.mp hj
    simp [if_pos (lt_of_lt_of_le hlt h)]

/-- mapUpTo preserves length. -/
theorem length_mapUpTo (e : Nat) (g : Nat → Nat) (l : List Nat) :
    (mapUpTo e g l).length = l.length := by
  simp [mapUpTo]

section ClassPass

variable {α : Type} [Inhabited α]
variable {fl : α → Bool} {setFl : α → α} {skipAt : α → Bool} {close : α → α → Bool}
variable {gI : Face → List Nat} {sI : Face → List Nat → Face}

/-- FrameTo is reflexive when writing back the class array is the identity. -/
theorem frameTo_refl (hsid : ∀ f, sI f (gI f) = f) (faces : List Face) :
    FrameTo gI sI faces faces :=
  ⟨rfl, fun k _ => ⟨gI (faces.getD k default), (hsid _).symm, rfl⟩⟩

/-- FrameTo composes when consecutive class writes collapse. -/
theorem frameTo_trans (hss : ∀ f l l2, sI (sI f l) l2 = sI f l2)
    (hgs : ∀ f l, gI (sI f l) = l) {l0 l1 l2 : List Face}
    (h01 : FrameTo gI sI l0 l1) (h12 : FrameTo gI sI l1 l2) :
    FrameTo gI sI l0 l2 := by
  obtain ⟨hl01, h01⟩ := h01
  obtain ⟨hl12, h12⟩ := h12
  refine ⟨hl12.trans hl01, fun k hk => ?_⟩
  obtain ⟨l, hfe, hle⟩ := h01 k hk
  obtain ⟨m, hfe2, hle2⟩ := h12 k (hl01 ▸ hk)
  refine ⟨m, ?_, ?_⟩
  · rw [hfe2, hfe, hss]
  · rw [hle2, hfe, hgs, hle]

/-- A pointwise class rewrite of every face is a FrameTo step. -/
theorem frameTo_map {τ : Face → Face}
    (hτ : ∀ f, ∃ l, τ f = sI f l ∧ l.length = (gI f).length) (faces : List Face) :
    FrameTo gI sI faces (faces.map τ) := by
  refine ⟨by simp, fun k hk => ?_⟩
  obtain ⟨l, he, hl⟩ := hτ (faces.getD k default)
  refine ⟨l, ?_, hl⟩
  rw [getD_lt (by simpa using hk), List.getElem_map, ← getD_lt hk default, he]

/-- dedupeRedirect is a FrameTo step. -/
theorem frameTo_dedupeRedirect (iTo jFrom : Nat) (faces : List Face) :
    FrameTo gI sI faces (dedupeRedirect gI sI iTo jFrom faces) :=
  frameTo_map (fun f => ⟨_, rfl, length_mapUpTo _ _ _⟩) faces

/-- dedupeShift is a FrameTo step. -/
theorem frameTo_dedupeShift (i : Nat) (faces : List Face) :
    FrameTo gI sI faces (dedupeShift gI sI i faces) :=
  frameTo_map (fun f => ⟨_, rfl, length_mapUpTo _ _ _⟩) faces

/-- Setting any position to the marked form of its current value preserves
the flag relation (marking is idempotent). -/
theorem flagsOf_set (hid : ∀ a, setFl (setFl a) = setFl a) {attrs0 attrs : List α}
    (h : FlagsOf setFl attrs0 attrs) (j : Nat) :
    FlagsOf setFl attrs0 (attrs.set j (setFl (attrs.getD j default))) := by
  obtain ⟨hlen, hpt⟩ := h
  refine ⟨by simpa using hlen, fun k hk => ?_⟩
  rcases eq_or_ne j k with rfl | hne
  · by_cases hj : j < attrs.length
    · rw [getD_lt (by simpa using (hlen ▸ hj)), List.getElem_set, if_pos rfl]
      rcases hpt j hk with h1 | h1 <;> rw [h1]
      · right; rfl
      · right; rw [hid]
    · rw [List.set_eq_of_length_le (by omega)]
      exact hpt j hk
  · have : (attrs.set j (setFl (attrs.getD j default))).getD k default = attrs.getD k default := by
      simp [List.getD_eq_getElem?_getD, List.getElem?_set_ne hne]
    rw [this]
    exact hpt k hk

/-- Reading a mapped list at an in-range position. -/
theorem getD_map_lt {τ : Face → Face} {faces : List Face} {k : Nat} (hk : k < faces.length) :
    (faces.map τ).getD k default = τ (faces.getD k default) := by
  rw [getD_lt (by simpa using hk), List.getElem_map, ← getD_lt hk default]

/-- One inner merge step preserves the flag and frame relations. -/
theorem dedupeInner_frame (hss : ∀ f l l2, sI (sI f l) l2 = sI f l2)
    (hgs : ∀ f l, gI (sI f l) = l) (hid : ∀ a, setFl (setFl a) = setFl a)
    {attrs0 : List α} {faces0 : List Face} (n i : Nat)
    (st : List α × List Face × Nat)
    (hP : FlagsOf setFl attrs0 st.1 ∧ FrameTo gI sI faces0 st.2.1) :
    FlagsOf setFl attrs0 (dedupeInner close setFl gI sI n i st).1 ∧
      FrameTo gI sI faces0 (dedupeInner close setFl gI sI n i st).2.1 := by
  unfold dedupeInner
  refine foldl_mem_inv _
    (fun (st : List α × List Face × Nat) =>
      FlagsOf setFl attrs0 st.1 ∧ FrameTo gI sI faces0 st.2.1) _ _ hP ?_
  intro stx j _ hPx
  dsimp only
  by_cases hc : close (stx.1.getD i default) (stx.1.getD j default)
  · simp only [if_pos hc]
    exact ⟨flagsOf_set hid hPx.1 j,
      frameTo_trans hss hgs hPx.2 (frameTo_dedupeRedirect i j _)⟩
  · simp only [if_neg hc]; exact hPx

/-- A merge pass only marks attribute entries and only rewrites the class
index arrays of faces. -/
theorem dedupeMerge_frame (hsid : ∀ f, sI f (gI f) = f)
    (hss : ∀ f l l2, sI (sI f l) l2 = sI f l2)
    (hgs : ∀ f l, gI (sI f l) = l) (hid : ∀ a, setFl (setFl a) = setFl a)
    (attrs0 : List α) (faces0 : List Face) :
    FlagsOf setFl attrs0 (dedupeMerge skipAt close setFl gI sI attrs0 faces0).1 ∧
      FrameTo gI sI faces0 (dedupeMerge skipAt close setFl gI sI attrs0 faces0).2.1 := by
  unfold dedupeMerge
  refine foldl_mem_inv _
    (fun (st : List α × List Face × Nat) =>
      FlagsOf setFl attrs0 st.1 ∧ FrameTo gI sI faces0 st.2.1) _ _
    ⟨⟨rfl, fun k _ => Or.inl rfl⟩, frameTo_refl hsid faces0⟩ ?_
  intro stx i _ hPx
  dsimp only
  by_cases hs : skipAt (stx.1.getD i default)
  · simp only [if_pos hs]; exact hPx
  · simp only [if_neg hs]
    exact dedupeInner_frame hss hgs hid _ i stx hPx

/-- When every entry satisfies the skip guard (for the vertex pass: every
marker clear, hence the inverted guard always fires), the merge pass is the
identity and reports zero duplicates. -/
theorem dedupeMerge_noop (attrs0 : List α) (faces0 : List Face)
    (h : ∀ a ∈ attrs0, skipAt a = true) :
    dedupeMerge skipAt close setFl gI sI attrs0 faces0 = (attrs0, faces0, 0) := by
  unfold dedupeMerge
  refine foldl_mem_inv _
    (fun (st : List α × List Face × Nat) => st = (attrs0, faces0, 0)) _ _ rfl ?_
  intro stx i hi hst
  subst hst
  have hi2 : i < attrs0.length := List.mem_range.mp hi
  have hsk : skipAt (attrs0.getD i default) = true := by
    rw [getD_lt hi2]
    exact h _ (List.getElem_mem hi2)
  dsimp only
  rw [if_pos hsk]

/-- One inner merge run keeps every class corner a valid index to an
unflushed entry, given an unflushed pivot entry i. -/
theorem dedupeInner_valid
    (hgs : ∀ f l, gI (sI f l) = l) (hse : ∀ f l, (sI f l).edges = f.edges)
    {N : Nat} (n i : Nat) (hiN : i < N)
    (st : List α × List Face × Nat)
    (h : (st.1.length = N ∧ PointsOK fl gI st.1 st.2.1 ∧ FacesWFg gI st.2.1) ∧
      fl (st.1.getD i default) = false) :
    ((dedupeInner close setFl gI sI n i st).1.length = N ∧
      PointsOK fl gI (dedupeInner close setFl gI sI n i st).1
        (dedupeInner close setFl gI sI n i st).2.1 ∧
      FacesWFg gI (dedupeInner close setFl gI sI n i st).2.1) ∧
      fl ((dedupeInner close setFl gI sI n i st).1.getD i default) = false := by
  unfold dedupeInner
  refine foldl_mem_inv _
    (fun (st : List α × List Face × Nat) =>
      (st.1.length = N ∧ PointsOK fl gI st.1 st.2.1 ∧ FacesWFg gI st.2.1) ∧
      fl (st.1.getD i default) = false) _ _ h ?_
  intro stx j hj hPx
  obtain ⟨⟨hlen, hpts, hwf⟩, hfli⟩ := hPx
  have hij : i + 1 ≤ j := by
    rw [List.mem_range'] at hj
    obtain ⟨idx, _, rfl⟩ := hj
    omega
  have hine : i ≠ j := by omega
  by_cases hc : close (stx.1.getD i default) (stx.1.getD j default)
  · simp only [if_pos hc]
    have hset : ∀ y, y ≠ j →
        (stx.1.set j (setFl (stx.1.getD j default))).getD y default = stx.1.getD y default := by
      intro y hy
      simp [List.getD_eq_getElem?_getD, List.getElem?_set_ne (Ne.symm hy)]
    refine ⟨⟨by simp [hlen], ?_, ?_⟩, by rw [hset i hine]; exact hfli⟩
    · -- pointing preserved
      intro k hk x hx
      have hk2 : k < stx.2.1.length := by
        simpa [dedupeRedirect] using hk
      have hface : (dedupeRedirect gI sI i j stx.2.1).getD k default =
          sI (stx.2.1.getD k default)
            (mapUpTo (stx.2.1.getD k default).edges
              (fun x => if x = j then i else x) (gI (stx.2.1.getD k default))) := by
        unfold dedupeRedirect
        exact getD_map_lt hk2
      rw [hface, hgs, mapUpTo_eq_map _ _ _ (le_of_eq (hwf k hk2))] at hx
      obtain ⟨y, hy, rfl⟩ := List.mem_map.mp hx
      obtain ⟨hylt, hyfl⟩ := hpts k hk2 y hy
      by_cases hyj : y = j
      · rw [if_pos hyj]
        refine ⟨by simp [hlen, hiN], ?_⟩
        rw [hset i hine]
        exact hfli
      · rw [if_neg hyj]
        refine ⟨by simp [hylt], ?_⟩
        rw [hset y hyj]
        exact hyfl
    · -- class well-formedness preserved
      intro k hk
      have hk2 : k < stx.2.1.length := by
        simpa [dedupeRedirect] using hk
      have hface : (dedupeRedirect gI sI i j stx.2.1).getD k default =
          sI (stx.2.1.getD k default)
            (mapUpTo (stx.2.1.getD k default).edges
              (fun x => if x = j then i else x) (gI (stx.2.1.getD k default))) := by
        unfold dedupeRedirect
        exact getD_map_lt hk2
      rw [hface, hgs, hse, length_mapUpTo]
      exact hwf k hk2
  · simp only [if_neg hc]
    exact ⟨⟨hlen, hpts, hwf⟩, hfli⟩

/-- A merge pass keeps every class corner a valid index to an unflushed
entry, provided a passing skip guard certifies an unflushed pivot. -/
theorem dedupeMerge_valid (hguard : ∀ a, skipAt a = false → fl a = false)
    (hgs : ∀ f l, gI (sI f l) = l) (hse : ∀ f l, (sI f l).edges = f.edges)
    (attrs0 : List α) (faces0 : List Face)
    (hpts : PointsOK fl gI attrs0 faces0) (hwf : FacesWFg gI faces0) :
    (dedupeMerge skipAt close setFl gI sI attrs0 faces0).1.length = attrs0.length ∧
    PointsOK fl gI (dedupeMerge skipAt close setFl gI sI attrs0 faces0).1
      (dedupeMerge skipAt close setFl gI sI attrs0 faces0).2.1 ∧
    FacesWFg gI (dedupeMerge skipAt close setFl gI sI attrs0 faces0).2.1 := by
  unfold dedupeMerge
  refine foldl_mem_inv _
    (fun (st : List α × List Face × Nat) =>
      st.1.length = attrs0.length ∧ PointsOK fl gI st.1 st.2.1 ∧
      FacesWFg gI st.2.1) _ _ ⟨rfl, hpts, hwf⟩ ?_
  intro stx i hi hPx
  dsimp only
  by_cases hs : skipAt (stx.1.getD i default)
  · simp only [if_pos hs]; exact hPx
  · simp only [if_neg hs]
    have hi2 : i < attrs0.length := List.mem_range.mp hi
    have hfli : fl (stx.1.getD i default) = false := hguard _ (by simpa using hs)
    exact (dedupeInner_valid hgs hse attrs0.length i hi2 stx ⟨hPx, hfli⟩).1

/-- Reading below the erased position. -/
theorem getD_eraseIdx_lt {β : Type _} {l : List β} {i p : Nat} (h : p < i) (d : β) :
    (l.eraseIdx i).getD p d = l.getD p d := by
  simp [List.getD_eq_getElem?_getD, List.getElem?_eraseIdx, if_pos h]

/-- Reading at or above the erased position. -/
theorem getD_eraseIdx_ge {β : Type _} {l : List β} {i p : Nat} (h : ¬p < i) (d : β) :
    (l.eraseIdx i).getD p d = l.getD (p + 1) d := by
  simp [List.getD_eq_getElem?_getD, List.getElem?_eraseIdx, if_neg h]

/-- The compaction loop removes exactly the flushed entries at or after the
cursor (the prefix being already compacted) and performs only class index
rewrites on faces. -/
theorem dedupeCompact_frame (hsid : ∀ f, sI f (gI f) = f)
    (hss : ∀ f l l2, sI (sI f l) l2 = sI f l2) (hgs : ∀ f l, gI (sI f l) = l) :
    ∀ (fuel i : Nat) (attrs : List α) (faces : List Face),
      attrs.length - i ≤ fuel →
      (dedupeCompact fl gI sI fuel i attrs faces).1
          = attrs.take i ++ (attrs.drop i).filter (fun a => !fl a) ∧
        FrameTo gI sI faces (dedupeCompact fl gI sI fuel i attrs faces).2 := by
  intro fuel
  induction fuel with
  | zero =>
    intro i attrs faces hfuel
    have hi : attrs.length ≤ i := by omega
    unfold dedupeCompact
    constructor
    · rw [List.take_of_length_le hi, List.drop_eq_nil_of_le hi]
      simp
    · exact frameTo_refl hsid faces
  | succ fuel ih =>
    intro i attrs faces hfuel
    by_cases hi : i < attrs.length
    · by_cases hf : fl (attrs.getD i default) = true
      · have hlen : (RemoveAtIndex attrs i).length = attrs.length - 1 := by
          rw [RemoveAtIndex, List.length_eraseIdx]
          simp [hi]
        have hrec := ih i (RemoveAtIndex attrs i) (dedupeShift gI sI i faces)
          (by omega)
        have hfe : fl attrs[i] = true := by
          rw [← getD_lt hi default]
          exact hf
        have hstep : dedupeCompact fl gI sI (fuel + 1) i attrs faces =
            dedupeCompact fl gI sI fuel i (RemoveAtIndex attrs i)
              (dedupeShift gI sI i faces) := by
          simp [dedupeCompact, hi, hfe]
        rw [hstep]
        refine ⟨?_, frameTo_trans hss hgs (frameTo_dedupeShift i faces) hrec.2⟩
        rw [hrec.1]
        have htk : i ≤ (List.take i attrs).length := by
          simp [List.length_take]
          omega
        have h1 : (RemoveAtIndex attrs i).take i = attrs.take i := by
          rw [RemoveAtIndex, List.eraseIdx_eq_take_drop_succ,
            List.take_append_of_le_length htk]
          simp [List.take_take]
        have h2 : (RemoveAtIndex attrs i).drop i = attrs.drop (i + 1) := by
          rw [RemoveAtIndex, List.eraseIdx_eq_take_drop_succ,
            List.drop_append_of_le_length htk]
          have : (List.take i attrs).length ≤ i := by simp [List.length_take]
          rw [List.drop_of_length_le this]
          simp
        rw [h1, h2]
        have h3 : attrs.drop i = attrs[i] :: attrs.drop (i + 1) :=
          List.drop_eq_getElem_cons hi
        rw [h3, List.filter_cons]
        simp [hfe]
      · have hrec := ih (i + 1) attrs faces (by omega)
        have hfe : fl attrs[i] = false := by
          rw [← getD_lt hi default]
          simpa using hf
        have hstep : dedupeCompact fl gI sI (fuel + 1) i attrs faces =
            dedupeCompact fl gI sI fuel (i + 1) attrs faces := by
          simp [dedupeCompact, hi, hfe]
        rw [hstep]
        refine ⟨?_, hrec.2⟩
        rw [hrec.1]
        have h3 : attrs.drop i = attrs[i] :: attrs.drop (i + 1) :=
          List.drop_eq_getElem_cons hi
        rw [h3, List.filter_cons]
        have hkeep : (!fl attrs[i]) = true := by rw [hfe]; rfl
        have h4 : List.take (i + 1) attrs = List.take i attrs ++ [attrs[i]] := by
          rw [List.take_succ, List.getElem?_eq_getElem hi]
          rfl
        rw [if_pos hkeep, h4, List.append_assoc, List.singleton_append]
    · have hstep : dedupeCompact fl gI sI (fuel + 1) i attrs faces = (attrs, faces) := by
        simp [dedupeCompact, hi]
      rw [hstep]
      have hile : attrs.length ≤ i := by omega
      constructor
      · rw [List.take_of_length_le hile, List.drop_eq_nil_of_le hile]
        simp
      · exact frameTo_refl hsid faces

/-- The compaction loop keeps every class corner a valid index into the
compacted attribute array, provided every corner enters pointing at an
unflushed entry and the prefix below the cursor is unflushed. -/
theorem dedupeCompact_valid (hgs : ∀ f l, gI (sI f l) = l)
    (hse : ∀ f l, (sI f l).edges = f.edges) :
    ∀ (fuel i : Nat) (attrs : List α) (faces : List Face),
      attrs.length - i ≤ fuel →
      (∀ p, p < i → fl (attrs.getD p default) = false) →
      PointsOK fl gI attrs faces → FacesWFg gI faces →
      ∀ k, k < (dedupeCompact fl gI sI fuel i attrs faces).2.length →
        ∀ x ∈ gI ((dedupeCompact fl gI sI fuel i attrs faces).2.getD k default),
          x < (dedupeCompact fl gI sI fuel i attrs faces).1.length := by
  intro fuel
  induction fuel with
  | zero =>
    intro i attrs faces hfuel hpre hpts hwf k hk x hx
    unfold dedupeCompact at hk hx ⊢
    exact (hpts k hk x hx).1
  | succ fuel ih =>
    intro i attrs faces hfuel hpre hpts hwf k hk x hx
    by_cases hi : i < attrs.length
    · by_cases hf : fl (attrs.getD i default) = true
      · have hfe : fl attrs[i] = true := by
          rw [← getD_lt hi default]
          exact hf
        have hstep : dedupeCompact fl gI sI (fuel + 1) i attrs faces =
            dedupeCompact fl gI sI fuel i (RemoveAtIndex attrs i)
              (dedupeShift gI sI i faces) := by
          simp [dedupeCompact, hi, hfe]
        rw [hstep] at hk hx ⊢
        have hlen : (RemoveAtIndex attrs i).length = attrs.length - 1 := by
          rw [RemoveAtIndex, List.length_eraseIdx]
          simp [hi]
        refine ih i (RemoveAtIndex attrs i) (dedupeShift gI sI i faces)
          (by omega) ?_ ?_ ?_ k hk x hx
        · intro p hp
          rw [RemoveAtIndex, getD_eraseIdx_lt hp]
          exact hpre p hp
        · -- pointing into the shortened array
          intro k2 hk2 y hy
          have hk3 : k2 < faces.length := by
            simpa [dedupeShift] using hk2
          have hface : (dedupeShift gI sI i faces).getD k2 default =
              sI (faces.getD k2 default)
                (mapUpTo (faces.getD k2 default).edges
                  (fun x => if x > i then x - 1 else x)
                  (gI (faces.getD k2 default))) := by
            unfold dedupeShift
            exact getD_map_lt hk3
          rw [hface, hgs, mapUpTo_eq_map _ _ _ (le_of_eq (hwf k2 hk3))] at hy
          obtain ⟨z, hz, rfl⟩ := List.mem_map.mp hy
          obtain ⟨hzlt, hzfl⟩ := hpts k2 hk3 z hz
          have hzne : z ≠ i := fun he => by rw [he, hf] at hzfl; cases hzfl
          by_cases hzi : z > i
          · rw [if_pos hzi]
            constructor
            · omega
            · rw [RemoveAtIndex, getD_eraseIdx_ge (by omega)]
              have : z - 1 + 1 = z := by omega
              rw [this]
              exact hzfl
          · rw [if_neg hzi]
            have hzlt2 : z < i := by omega
            constructor
            · omega
            · rw [RemoveAtIndex, getD_eraseIdx_lt hzlt2]
              exact hzfl
        · -- class well-formedness preserved by the shift
          intro k2 hk2
          have hk3 : k2 < faces.length := by
            simpa [dedupeShift] using hk2
          have hface : (dedupeShift gI sI i faces).getD k2 default =
              sI (faces.getD k2 default)
                (mapUpTo (faces.getD k2 default).edges
                  (fun x => if x > i then x - 1 else x)
                  (gI (faces.getD k2 default))) := by
            unfold dedupeShift
            exact getD_map_lt hk3
          rw [hface, hgs, hse, length_mapUpTo]
          exact hwf k2 hk3
      · have hfe : fl attrs[i] = false := by
          rw [← getD_lt hi default]
          simpa using hf
        have hstep : dedupeCompact fl gI sI (fuel + 1) i attrs faces =
            dedupeCompact fl gI sI fuel (i + 1) attrs faces := by
          simp [dedupeCompact, hi, hfe]
        rw [hstep] at hk hx ⊢
        refine ih (i + 1) attrs faces (by omega) ?_ hpts hwf k hk x hx
        intro p hp
        by_cases hpi : p < i
        · exact hpre p hpi
        · have : p = i := by omega
          rw [this]
          simpa using hf
    · have hstep : dedupeCompact fl gI sI (fuel + 1) i attrs faces = (attrs, faces) := by
        simp [dedupeCompact, hi]
      rw [hstep] at hk hx ⊢
      exact (hpts k hk x hx).1

/-- Filtering the unmarked entries of a flag-related list is a sublist of the
original: marking never changes a surviving entry. -/
theorem flags_filter_sublist (hflt : ∀ a, fl (setFl a) = true) :
    ∀ {l0 l1 : List α}, FlagsOf setFl l0 l1 →
      (l1.filter fun a => !fl a).Sublist l0 := by
  intro l0
  induction l0 with
  | nil =>
    intro l1 h
    have : l1 = [] := List.eq_nil_of_length_eq_zero h.1
    simp [this]
  | cons a0 l0 ih =>
    intro l1 h
    obtain ⟨hlen, hpt⟩ := h
    cases l1 with
    | nil => simp at hlen
    | cons a1 l1 =>
      have htail : FlagsOf setFl l0 l1 := by
        refine ⟨by simpa using hlen, fun k hk => ?_⟩
        have := hpt (k + 1) (by simpa using Nat.succ_lt_succ hk)
        simpa using this
      have hhead := hpt 0 (by simp)
      simp only [List.getD_cons_zero] at hhead
      rw [List.filter_cons]
      by_cases hk : (!fl a1) = true
      · rw [if_pos hk]
        have ha : a1 = a0 := by
          rcases hhead with h1 | h1
          · exact h1
          · rw [h1, hflt] at hk
            cases hk
        rw [ha]
        exact List.Sublist.cons₂ a0 (ih htail)
      · rw [if_neg hk]
        exact List.Sublist.cons a0 (ih htail)

/-- A dedupe stage keeps a sublist of the original attribute entries and
performs only class index rewrites on faces. -/
theorem dedupeStage_frame (hsid : ∀ f, sI f (gI f) = f)
    (hss : ∀ f l l2, sI (sI f l) l2 = sI f l2) (hgs : ∀ f l, gI (sI f l) = l)
    (hid : ∀ a, setFl (setFl a) = setFl a) (hflt : ∀ a, fl (setFl a) = true)
    (attrs : List α) (faces : List Face) :
    (dedupeStage skipAt close fl setFl gI sI attrs faces).1.Sublist attrs ∧
      FrameTo gI sI faces (dedupeStage skipAt close fl setFl gI sI attrs faces).2.1 := by
  have hm := @dedupeMerge_frame α _ setFl skipAt close gI sI hsid hss hgs hid attrs faces
  have hc := @dedupeCompact_frame α _ fl gI sI hsid hss hgs
    (dedupeMerge skipAt close setFl gI sI attrs faces).1.length 0
    (dedupeMerge skipAt close setFl gI sI attrs faces).1
    (dedupeMerge skipAt close setFl gI sI attrs faces).2.1 (by omega)
  constructor
  · show (dedupeCompact fl gI sI _ 0 _ _).1.Sublist attrs
    rw [hc.1]
    simp only [List.take_zero, List.drop_zero, List.nil_append]
    exact flags_filter_sublist hflt hm.1
  · exact frameTo_trans hss hgs hm.2 hc.2

/-- A dedupe stage on a class whose merge guard certifies unflushed pivots
leaves every class corner a valid index into the compacted array. -/
theorem dedupeStage_valid (hguard : ∀ a, skipAt a = false → fl a = false)
    (hgs : ∀ f l, gI (sI f l) = l) (hse : ∀ f l, (sI f l).edges = f.edges)
    (attrs : List α) (faces : List Face)
    (hpts : PointsOK fl gI attrs faces) (hwf : FacesWFg gI faces) :
    ∀ k, k < (dedupeStage skipAt close fl setFl gI sI attrs faces).2.1.length →
      ∀ x ∈ gI ((dedupeStage skipAt close fl setFl gI sI attrs faces).2.1.getD k default),
        x < (dedupeStage skipAt close fl setFl gI sI attrs faces).1.length := by
  have hm := @dedupeMerge_valid α _ fl setFl skipAt close gI sI
    hguard hgs hse attrs faces hpts hwf
  exact dedupeCompact_valid hgs hse _ 0 _ _ (by omega) (by omega)
    hm.2.1 hm.2.2

/-- A dedupe stage whose merge pass skips every entry (the vertex stage at a
pipeline boundary: all markers clear, inverted guard) likewise keeps every
class corner valid. -/
theorem dedupeStage_valid_noop {attrs : List α} (faces : List Face)
    (hall : ∀ a ∈ attrs, skipAt a = true)
    (hgs : ∀ f l, gI (sI f l) = l) (hse : ∀ f l, (sI f l).edges = f.edges)
    (hpts : PointsOK fl gI attrs faces) (hwf : FacesWFg gI faces) :
    ∀ k, k < (dedupeStage skipAt close fl setFl gI sI attrs faces).2.1.length →
      ∀ x ∈ gI ((dedupeStage skipAt close fl setFl gI sI attrs faces).2.1.getD k default),
        x < (dedupeStage skipAt close fl setFl gI sI attrs faces).1.length := by
  have hm := @dedupeMerge_noop α _ setFl skipAt close gI sI
    attrs faces hall
  unfold dedupeStage
  rw [hm]
  exact dedupeCompact_valid hgs hse _ 0 _ _ (by omega) (by omega) hpts hwf

/-- FrameTo leaves the index arrays of any other class pointwise unchanged. -/
theorem frameTo_other {gOther : Face → List Nat} {l0 l1 : List Face}
    (h : FrameTo gI sI l0 l1)
    (hcross : ∀ f l, gOther (sI f l) = gOther f) :
    ∀ k, k < l0.length → gOther (l1.getD k default) = gOther (l0.getD k default) := by
  intro k hk
  obtain ⟨l, he, _⟩ := h.2 k hk
  rw [he, hcross]

/-- FrameTo leaves the degree of every face pointwise unchanged. -/
theorem frameTo_edges {l0 l1 : List Face} (h : FrameTo gI sI l0 l1)
    (hse : ∀ f l, (sI f l).edges = f.edges) :
    ∀ k, k < l0.length → (l1.getD k default).edges = (l0.getD k default).edges := by
  intro k hk
  obtain ⟨l, he, _⟩ := h.2 k hk
  rw [he, hse]

/-- FrameTo yields pointwise shape preservation when the class write
preserves the shape fields. -/
theorem frameTo_sameShape {l0 l1 : List Face} (h : FrameTo gI sI l0 l1)
    (hshape : ∀ f l, SameShape f (sI f l)) :
    l1.length = l0.length ∧
      ∀ k, k < l0.length → SameShape (l0.getD k default) (l1.getD k default) := by
  refine ⟨h.1, fun k hk => ?_⟩
  obtain ⟨l, he, _⟩ := h.2 k hk
  rw [he]
  exact hshape _ _

end ClassPass

/-- SameShape is transitive. -/
theorem sameShape_trans {f0 f1 f2 : Face} (h1 : SameShape f0 f1) (h2 : SameShape f1 f2) :
    SameShape f0 f2 := by
  obtain ⟨a1, b1, c1, d1, e1, g1⟩ := h1
  obtain ⟨a2, b2, c2, d2, e2, g2⟩ := h2
  exact ⟨a2.trans a1, b2.trans b1, c2.trans c1, d2.trans d1, e2.trans e1, g2.trans g1⟩

/-- Deduplication touches only the attribute arrays (each final array is a
sublist of its original: surviving entries keep their values and relative
order) and the face index arrays: the face count and every face's degree,
material, tangent array, Morton code and completion flag are unchanged. -/
theorem DeDupe_frame_effect (vT nT uvT : ℚ) (s : Store) :
    (DeDupe vT nT uvT s).1.faces.length = s.faces.length ∧
    (∀ k, k < s.faces.length →
      SameShape (s.faces.getD k default) ((DeDupe vT nT uvT s).1.faces.getD k default)) ∧
    (DeDupe vT nT uvT s).1.vertices.Sublist s.vertices ∧
    (DeDupe vT nT uvT s).1.normals.Sublist s.normals ∧
    (DeDupe vT nT uvT s).1.textureCoords.Sublist s.textureCoords := by
  simp only [DeDupe]
  have hv := @dedupeStage_frame Vertex _ vFlushed vFlush vSkip (vertexClose vT) vGet vSet
    (fun _ => rfl) (fun _ _ _ => rfl) (fun _ _ => rfl) (fun _ => rfl) (fun _ => rfl)
    s.vertices s.faces
  have hv2 := frameTo_sameShape hv.2 (fun _ _ => ⟨rfl, rfl, rfl, rfl, rfl, rfl⟩)
  have hn := @dedupeStage_frame Normal _ nFlushed nFlush nFlushed (normalClose nT) nGet nSet
    (fun _ => rfl) (fun _ _ _ => rfl) (fun _ _ => rfl) (fun _ => rfl) (fun _ => rfl)
    s.normals
    (dedupeStage vSkip (vertexClose vT) vFlushed vFlush vGet vSet s.vertices s.faces).2.1
  have hn2 := frameTo_sameShape hn.2 (fun _ _ => ⟨rfl, rfl, rfl, rfl, rfl, rfl⟩)
  have hu := @dedupeStage_frame TextureCoord _ tcFlushed tcFlush tcFlushed (uvClose uvT) uvGet uvSet
    (fun _ => rfl) (fun _ _ _ => rfl) (fun _ _ => rfl) (fun _ => rfl) (fun _ => rfl)
    s.textureCoords
    (dedupeStage nFlushed (normalClose nT) nFlushed nFlush nGet nSet s.normals
      (dedupeStage vSkip (vertexClose vT) vFlushed vFlush vGet vSet
        s.vertices s.faces).2.1).2.1
  have hu2 := frameTo_sameShape hu.2 (fun _ _ => ⟨rfl, rfl, rfl, rfl, rfl, rfl⟩)
  refine ⟨?_, ?_, hv.1, hn.1, hu.1⟩
  · rw [hu2.1, hn2.1, hv2.1]
  · intro k hk
    have h1 := hv2.2 k hk
    have h2 := hn2.2 k (by rw [hv2.1]; exact hk)
    have h3 := hu2.2 k (by rw [hn2.1, hv2.1]; exact hk)
    exact sameShape_trans (sameShape_trans h1 h2) h3

/-- DeDupe leaves every face index array entry a valid index into the
corresponding compacted attribute array, starting from a well-formed, valid
store with all markers clear. -/
theorem DeDupe_preserves_validity (vT nT uvT : ℚ) (s : Store)
    (hval : StoreValid s) (hwf : StoreWF s) (hunf : StoreUnflushed s) :
    StoreValid (DeDupe vT nT uvT s).1 := by
  obtain ⟨hufV, hufN, hufU⟩ := hunf
  have hvalIdx : ∀ k, k < s.faces.length →
      FaceValid s.vertices.length s.normals.length s.textureCoords.length
        (s.faces.getD k default) := by
    intro k hk
    rw [getD_lt hk]
    exact hval _ (List.getElem_mem hk)
  have hwfIdx : ∀ k, k < s.faces.length → FaceWF (s.faces.getD k default) := by
    intro k hk
    rw [getD_lt hk]
    exact hwf _ (List.getElem_mem hk)
  -- frame facts of the three stages
  have hvF := @dedupeStage_frame Vertex _ vFlushed vFlush vSkip (vertexClose vT) vGet vSet
    (fun _ => rfl) (fun _ _ _ => rfl) (fun _ _ => rfl) (fun _ => rfl) (fun _ => rfl)
    s.vertices s.faces
  have hnF := @dedupeStage_frame Normal _ nFlushed nFlush nFlushed (normalClose nT) nGet nSet
    (fun _ => rfl) (fun _ _ _ => rfl) (fun _ _ => rfl) (fun _ => rfl) (fun _ => rfl)
    s.normals
    (dedupeStage vSkip (vertexClose vT) vFlushed vFlush vGet vSet s.vertices s.faces).2.1
  have huF := @dedupeStage_frame TextureCoord _ tcFlushed tcFlush tcFlushed (uvClose uvT) uvGet uvSet
    (fun _ => rfl) (fun _ _ _ => rfl) (fun _ _ => rfl) (fun _ => rfl) (fun _ => rfl)
    s.textureCoords
    (dedupeStage nFlushed (normalClose nT) nFlushed nFlush nGet nSet s.normals
      (dedupeStage vSkip (vertexClose vT) vFlushed vFlush vGet vSet
        s.vertices s.faces).2.1).2.1
  have hlen1 := hvF.2.1
  have hlen2 := hnF.2.1
  have hlen3 := huF.2.1
  -- vertex-class validity from the no-op stage lemma
  have hPv : PointsOK vFlushed vGet s.vertices s.faces := by
    intro k hk x hx
    refine ⟨(hvalIdx k hk).1 x hx, ?_⟩
    have hxlt : x < s.vertices.length := (hvalIdx k hk).1 x hx
    rw [getD_lt hxlt]
    exact hufV _ (List.getElem_mem hxlt)
  have hWv : FacesWFg vGet s.faces := fun k hk => (hwfIdx k hk).1
  have hVv := @dedupeStage_valid_noop Vertex _ vFlushed vFlush vSkip (vertexClose vT)
    vGet vSet s.vertices s.faces
    (fun a ha => by simp [vSkip, hufV a ha]) (fun _ _ => rfl) (fun _ _ => rfl) hPv hWv
  -- normal-class validity through the first stage frame
  have hPn : PointsOK nFlushed nGet s.normals
      (dedupeStage vSkip (vertexClose vT) vFlushed vFlush vGet vSet
        s.vertices s.faces).2.1 := by
    intro k hk x hx
    have hk0 : k < s.faces.length := by rw [← hlen1]; exact hk
    rw [@frameTo_other vGet vSet nGet _ _ hvF.2 (fun _ _ => rfl) k hk0] at hx
    refine ⟨(hvalIdx k hk0).2.1 x hx, ?_⟩
    have hxlt : x < s.normals.length := (hvalIdx k hk0).2.1 x hx
    rw [getD_lt hxlt]
    exact hufN _ (List.getElem_mem hxlt)
  have hWn : FacesWFg nGet
      (dedupeStage vSkip (vertexClose vT) vFlushed vFlush vGet vSet
        s.vertices s.faces).2.1 := by
    intro k hk
    have hk0 : k < s.faces.length := by rw [← hlen1]; exact hk
    rw [@frameTo_other vGet vSet nGet _ _ hvF.2 (fun _ _ => rfl) k hk0,
      frameTo_edges hvF.2 (fun _ _ => rfl) k hk0]
    exact (hwfIdx k hk0).2.1
  have hVn := @dedupeStage_valid Normal _ nFlushed nFlush nFlushed (normalClose nT)
    nGet nSet
    (fun a ha => by simpa [nFlushed] using ha) (fun _ _ => rfl) (fun _ _ => rfl)
    s.normals _ hPn hWn
  -- uv-class validity through the first two stage frames
  have hPu : PointsOK tcFlushed uvGet s.textureCoords
      (dedupeStage nFlushed (normalClose nT) nFlushed nFlush nGet nSet s.normals
        (dedupeStage vSkip (vertexClose vT) vFlushed vFlush vGet vSet
          s.vertices s.faces).2.1).2.1 := by
    intro k hk x hx
    have hk1 : k < (dedupeStage vSkip (vertexClose vT) vFlushed vFlush vGet vSet
        s.vertices s.faces).2.1.length := by rw [← hlen2]; exact hk
    have hk0 : k < s.faces.length := by rw [← hlen1]; exact hk1
    rw [@frameTo_other nGet nSet uvGet _ _ hnF.2 (fun _ _ => rfl) k hk1,
      @frameTo_other vGet vSet uvGet _ _ hvF.2 (fun _ _ => rfl) k hk0] at hx
    refine ⟨(hvalIdx k hk0).2.2 x hx, ?_⟩
    have hxlt : x < s.textureCoords.length := (hvalIdx k hk0).2.2 x hx
    rw [getD_lt hxlt]
    exact hufU _ (List.getElem_mem hxlt)
  have hWu : FacesWFg uvGet
      (dedupeStage nFlushed (normalClose nT) nFlushed nFlush nGet nSet s.normals
        (dedupeStage vSkip (vertexClose vT) vFlushed vFlush vGet vSet
          s.vertices s.faces).2.1).2.1 := by
    intro k hk
    have hk1 : k < (dedupeStage vSkip (vertexClose vT) vFlushed vFlush vGet vSet
        s.vertices s.faces).2.1.length := by rw [← hlen2]; exact hk
    have hk0 : k < s.faces.length := by rw [← hlen1]; exact hk1
    rw [@frameTo_other nGet nSet uvGet _ _ hnF.2 (fun _ _ => rfl) k hk1,
      frameTo_edges hnF.2 (fun _ _ => rfl) k hk1,
      @frameTo_other vGet vSet uvGet _ _ hvF.2 (fun _ _ => rfl) k hk0,
      frameTo_edges hvF.2 (fun _ _ => rfl) k hk0]
    exact (hwfIdx k hk0).2.2.1
  have hVu := @dedupeStage_valid TextureCoord _ tcFlushed tcFlush tcFlushed (uvClose uvT)
    uvGet uvSet
    (fun a ha => by simpa [tcFlushed] using ha) (fun _ _ => rfl) (fun _ _ => rfl)
    s.textureCoords _ hPu hWu
  -- assemble the final store validity
  simp only [DeDupe]
  intro f hf
  obtain ⟨k, hfk⟩ := List.mem_iff_getElem?.mp hf
  obtain ⟨hk3, hfe⟩ := List.getElem?_eq_some.mp hfk
  have hfeD : (dedupeStage tcFlushed (uvClose uvT) tcFlushed tcFlush uvGet uvSet
      s.textureCoords
      (dedupeStage nFlushed (normalClose nT) nFlushed nFlush nGet nSet s.normals
        (dedupeStage vSkip (vertexClose vT) vFlushed vFlush vGet vSet
          s.vertices s.faces).2.1).2.1).2.1.getD k default = f := by
    rw [getD_lt hk3, hfe]
  have hk2 : k < (dedupeStage nFlushed (normalClose nT) nFlushed nFlush nGet nSet
      s.normals
      (dedupeStage vSkip (vertexClose vT) vFlushed vFlush vGet vSet
        s.vertices s.faces).2.1).2.1.length := by rw [← hlen3]; exact hk3
  have hk1 : k < (dedupeStage vSkip (vertexClose vT) vFlushed vFlush vGet vSet
      s.vertices s.faces).2.1.length := by rw [← hlen2]; exact hk2
  refine ⟨?_, ?_, ?_⟩
  · -- vertex indices: stage 1 validity, preserved by stages 2 and 3
    intro x hx
    have hx1 : x ∈ vGet f := hx
    rw [← hfeD, @frameTo_other uvGet uvSet vGet _ _ huF.2 (fun _ _ => rfl) k hk2,
      @frameTo_other nGet nSet vGet _ _ hnF.2 (fun _ _ => rfl) k hk1] at hx1
    exact hVv k hk1 x hx1
  · -- normal indices: stage 2 validity, preserved by stage 3
    intro x hx
    have hx1 : x ∈ nGet f := hx
    rw [← hfeD, @frameTo_other uvGet uvSet nGet _ _ huF.2 (fun _ _ => rfl) k hk2] at hx1
    exact hVn k hk2 x hx1
  · -- uv indices: stage 3 validity
    intro x hx
    have hx1 : x ∈ uvGet f := hx
    rw [← hfeD] at hx1
    exact hVu k hk3 x hx1

/-- A successful ConvertQuadToTriangles preserves index validity and
well-formedness of both resulting triangles. -/
theorem convertQuad_valid {f : Face} {p : Face × Face} {nv nn nu : Nat}
    (h : ConvertQuadToTriangles f = some p)
    (hv : FaceValid nv nn nu f) (hwf : FaceWF f) (h4 : f.edges = 4) :
    (FaceValid nv nn nu p.1 ∧ FaceWF p.1) ∧ (FaceValid nv nn nu p.2 ∧ FaceWF p.2) := by
  unfold ConvertQuadToTriangles at h
  simp only [bind, Option.bind_eq_some] at h
  obtain ⟨v0, hv0, v2, hv2, v3, hv3, n0, hn0, n2, hn2, n3, hn3,
    uv0, huv0, uv2, huv2, uv3, huv3, h⟩ := h
  by_cases ht : f.t.length = 4
  · rw [if_pos ht] at h
    cases h
  · rw [if_neg ht] at h
    simp only [Option.some.injEq] at h
    obtain ⟨hvl, hnl, hul, htl⟩ := hwf
    have hvl4 : f.v.length = 4 := by rw [hvl, h4]
    have hnl4 : f.n.length = 4 := by rw [hnl, h4]
    have hul4 : f.uv.length = 4 := by rw [hul, h4]
    subst h
    constructor
    · constructor
      · refine ⟨?_, ?_, ?_⟩
        · intro x hx
          exact hv.1 x ((List.eraseIdx_sublist f.v 3).mem hx)
        · intro x hx
          exact hv.2.1 x ((List.eraseIdx_sublist f.n 3).mem hx)
        · intro x hx
          exact hv.2.2 x ((List.eraseIdx_sublist f.uv 3).mem hx)
      · refine ⟨?_, ?_, ?_, htl⟩
        · show (RemoveAtIndex f.v 3).length = 3
          rw [RemoveAtIndex, List.length_eraseIdx]
          rw [hvl4]
          rfl
        · show (RemoveAtIndex f.n 3).length = 3
          rw [RemoveAtIndex, List.length_eraseIdx]
          rw [hnl4]
          rfl
        · show (RemoveAtIndex f.uv 3).length = 3
          rw [RemoveAtIndex, List.length_eraseIdx]
          rw [hul4]
          rfl
    · constructor
      · refine ⟨?_, ?_, ?_⟩
        · intro x hx
          simp only [List.mem_cons, List.not_mem_nil, or_false] at hx
          rcases hx with rfl | rfl | rfl
          · exact hv.1 x (List.mem_iff_getElem?.mpr ⟨0, hv0⟩)
          · exact hv.1 x (List.mem_iff_getElem?.mpr ⟨2, hv2⟩)
          · exact hv.1 x (List.mem_iff_getElem?.mpr ⟨3, hv3⟩)
        · intro x hx
          simp only [List.mem_cons, List.not_mem_nil, or_false] at hx
          rcases hx with rfl | rfl | rfl
          · exact hv.2.1 x (List.mem_iff_getElem?.mpr ⟨0, hn0⟩)
          · exact hv.2.1 x (List.mem_iff_getElem?.mpr ⟨2, hn2⟩)
          · exact hv.2.1 x (List.mem_iff_getElem?.mpr ⟨3, hn3⟩)
        · intro x hx
          simp only [List.mem_cons, List.not_mem_nil, or_false] at hx
          rcases hx with rfl | rfl | rfl
          · exact hv.2.2 x (List.mem_iff_getElem?.mpr ⟨0, huv0⟩)
          · exact hv.2.2 x (List.mem_iff_getElem?.mpr ⟨2, huv2⟩)
          · exact hv.2.2 x (List.mem_iff_getElem?.mpr ⟨3, huv3⟩)
      · exact ⟨rfl, rfl, rfl, rfl⟩

/-- The triangulation walk yields only faces whose index entries were index
entries of the input faces: validity and well-formedness propagate. -/
theorem triangulateLoop_valid :
    ∀ (fuel : Nat) (done todo res : List Face) (nv nn nu : Nat),
      (∀ f ∈ done, FaceValid nv nn nu f ∧ FaceWF f) →
      (∀ f ∈ todo, FaceValid nv nn nu f ∧ FaceWF f) →
      triangulateLoop fuel done todo = some res →
      ∀ f ∈ res, FaceValid nv nn nu f := by
  intro fuel
  induction fuel with
  | zero =>
    intro done todo res nv nn nu hdone htodo h
    cases todo with
    | nil =>
      simp only [triangulateLoop, Option.some.injEq] at h
      subst h
      exact fun f hf => (hdone f hf).1
    | cons f rest => simp [triangulateLoop] at h
  | succ fuel ih =>
    intro done todo res nv nn nu hdone htodo h
    cases todo with
    | nil =>
      simp only [triangulateLoop, Option.some.injEq] at h
      subst h
      exact fun f hf => (hdone f hf).1
    | cons f rest =>
      have hf := htodo f (by simp)
      have hrest : ∀ g ∈ rest, FaceValid nv nn nu g ∧ FaceWF g :=
        fun g hg => htodo g (by simp [hg])
      by_cases h4 : f.edges = 4
      · cases hc : ConvertQuadToTriangles f with
        | none => simp [triangulateLoop, h4, hc] at h
        | some p =>
          have hp := convertQuad_valid hc hf.1 hf.2 h4
          simp only [triangulateLoop, if_pos h4, hc] at h
          refine ih (done ++ [p.1]) (rest ++ [p.2]) res nv nn nu ?_ ?_ h
          · intro g hg
            rcases List.mem_append.mp hg with hg | hg
            · exact hdone g hg
            · simp only [List.mem_singleton] at hg
              subst hg
              exact hp.1
          · intro g hg
            rcases List.mem_append.mp hg with hg | hg
            · exact hrest g hg
            · simp only [List.mem_singleton] at hg
              subst hg
              exact hp.2
      · simp only [triangulateLoop, if_neg h4] at h
        refine ih (done ++ [f]) rest res nv nn nu ?_ hrest h
        intro g hg
        rcases List.mem_append.mp hg with hg | hg
        · exact hdone g hg
        · simp only [List.mem_singleton] at hg
          subst hg
          exact hf

/-- The quad-triangulation stage preserves the index-validity invariant. -/
theorem TriangulateQuads_valid (s s' : Store) (hwf : StoreWF s) (hval : StoreValid s)
    (h : TriangulateQuads s = some s') : StoreValid s' := by
  unfold TriangulateQuads at h
  cases hres : triangulateLoop (2 * countQuads s.faces + s.faces.length) [] s.faces with
  | none => rw [hres] at h; cases h
  | some fs =>
    rw [hres] at h
    simp only [Option.some.injEq] at h
    subst h
    intro f hf
    exact triangulateLoop_valid _ [] s.faces fs
      s.vertices.length s.normals.length s.textureCoords.length
      (by simp) (fun g hg => ⟨hval g hg, hwf g hg⟩) hres f hf

/-- The vertex pass of DeDupe never merges anything: its continue guard is
inverted (it skips exactly the entries whose marker is clear, and at this
pipeline stage every marker is clear), so two coincident vertices — whose
distance 0 is below the default 1e-4 tolerance, as the first conjunct
records — both survive and the duplicate count stays 0, where the claim
requires the later one to be merged into the earlier. -/
theorem dedupe_identical_vertices_not_merged :
    vertexClose (1 / 10000) vA vA = true ∧
    (DeDupe (1 / 10000) (1 / 100000) (1 / 100000) storeDupVerts).1.vertices = [vA, vA] ∧
    (DeDupe (1 / 10000) (1 / 100000) (1 / 100000) storeDupVerts).2.1 = 0 := by
  refine ⟨?_, by decide, by decide⟩
  simp only [vertexClose, vA]
  norm_num

/-- WriteOutput on a mesh parsed without normals: the face loop indexes the
empty normal-index array at j = 0 (the Go code iterates j up to the degree
regardless of the array length), an index-out-of-range panic modelled as
none — the face record claimed by the spec (degree byte, vertex indices, no
normal indices, material) is never produced.  The second conjunct shows the
layout the encoder does produce when every index array is populated. -/
theorem writeOutput_faces_panic_on_empty_normals :
    writeFaceRecords true [faceTriNoNormals] = none ∧
    writeFaceRecords true [faceTriFull] =
      some [3, 0, 0, 0, 0, 1, 0, 0, 0, 2, 0, 0, 0,
            0, 0, 0, 0, 1, 0, 0, 0, 2, 0, 0, 0,
            0, 0, 0, 0, 1, 0, 0, 0, 2, 0, 0, 0,
            0, 0, 0, 0] := by
  constructor
  · decide
  · decide

/-- ConvertQuadToTriangles on a quad without tangents produces exactly the
claimed split — the face truncated in place to corners (0,1,2) and an
appended triangle with corners (0,2,3), the same material and the same
corner selection on the normal and uv arrays — but on a quad whose tangent
array has length 4 it writes index 0 of the freshly allocated zero-length
tangent slice of the new face, an index-out-of-range panic (none), instead
of the claimed tangent propagation. -/
theorem convertQuad_split_and_tangent_panic :
    ConvertQuadToTriangles quadNoTangents =
      some (⟨3, [0, 1, 2], [4, 5, 6], [], [12, 13, 14], 5, "m", 0, false⟩,
            ⟨3, [0, 2, 3], [4, 6, 7], [], [12, 14, 15], 5, "m", 0, false⟩) ∧
    ConvertQuadToTriangles quadWithTangents = none := by
  constructor
  · decide
  · decide

/-- The documented contract of slices.SortFunc (ascending permutation, no
stability promise) admits, on two distinct faces with equal Morton codes, an
outcome that reverses their original relative order: tie preservation is not
a property of the sort the optimiser calls. -/
theorem sortFuncSpec_allows_tie_reversal :
    SortFuncSpec [faceM0, faceM1] [faceM1, faceM0] ∧
    faceM0.mortonCode = faceM1.mortonCode ∧ faceM0 ≠ faceM1 ∧
    [faceM1, faceM0] ≠ [faceM0, faceM1] := by
  refine ⟨⟨by decide, ?_⟩, by decide, by decide, by decide⟩
  have : mortonLE faceM1 faceM0 := Nat.le_refl _
  simp [List.Sorted, List.pairwise_cons, this]

section RemapProofs

variable {α ObsT : Type} [Inhabited α]
variable {fl : α → Bool} {setFl : α → α}
variable {gI : Face → List Nat} {sI : Face → List Nat → Face}
variable {obs : Face → ObsT}

/-- Marking an unflushed entry increases the flushed count by exactly one. -/
theorem filter_length_set (fl : α → Bool) :
    ∀ (l : List α) (x : Nat) (b : α), x < l.length →
      fl (l.getD x default) = false → fl b = true →
      ((l.set x b).filter fl).length = (l.filter fl).length + 1 := by
  intro l
  induction l with
  | nil => intro x b hx _ _; simp at hx
  | cons a t ih =>
    intro x b hx hfl hb
    cases x with
    | zero =>
      simp only [List.getD_cons_zero] at hfl
      simp [List.filter_cons, hfl, hb]
    | succ x =>
      simp only [List.getD_cons_succ] at hfl
      have hx2 : x < t.length := by simpa using hx
      simp only [List.set_cons_succ, List.filter_cons]
      by_cases ha : fl a = true
      · simp [ha, ih x b hx2 hfl hb]
      · have ha2 : fl a = false := by simpa using ha
        simp [ha2, ih x b hx2 hfl hb]

/-- The corner substitution of a first-touch event is idempotent. -/
theorem substIdem (vidx cur x : Nat) :
    (if (if x = vidx then cur else x) = vidx then cur else (if x = vidx then cur else x)) =
      (if x = vidx then cur else x) := by
  by_cases hx : x = vidx
  · simp only [if_pos hx]
    by_cases hc : cur = vidx <;> simp [hc]
  · simp [hx]

/-- mapUpTo with the corner substitution is idempotent. -/
theorem mapUpTo_subst_idem (e vidx cur : Nat) (l : List Nat) :
    mapUpTo e (fun y => if y = vidx then cur else y)
        (mapUpTo e (fun y => if y = vidx then cur else y) l) =
      mapUpTo e (fun y => if y = vidx then cur else y) l := by
  apply List.ext_getElem?
  intro j
  simp only [mapUpTo, List.getElem?_mapIdx]
  cases hj : l[j]? with
  | none => rfl
  | some x =>
    by_cases hje : j < e
    · simp [hje, substIdem vidx cur x]
    · simp [hje]

/-- Characterisation of the redirect loop of one first-touch event: every
face is either untouched (and, when recorded as a user, was already
complete), or was incomplete, recorded, and had exactly its class corners
equal to vidx rewritten to the next output index. -/
theorem remapUses_spec (hgs : ∀ f l, gI (sI f l) = l)
    (hss : ∀ f l l2, sI (sI f l) l2 = sI f l2)
    (hse : ∀ f l, (sI f l).edges = f.edges)
    (hsc : ∀ f l, (sI f l).complete = f.complete) (vidx cur : Nat) :
    ∀ (uses : List Nat) (fs0 : List Face),
      (remapUses gI sI uses vidx cur fs0).length = fs0.length ∧
      ∀ k, k < fs0.length →
        ((remapUses gI sI uses vidx cur fs0).getD k default = fs0.getD k default ∧
          (k ∈ uses → (fs0.getD k default).complete = true)) ∨
        ((fs0.getD k default).complete = false ∧ k ∈ uses ∧
          (remapUses gI sI uses vidx cur fs0).getD k default =
            sI (fs0.getD k default)
              (mapUpTo (fs0.getD k default).edges
                (fun y => if y = vidx then cur else y)
                (gI (fs0.getD k default)))) := by
  intro uses
  induction uses with
  | nil =>
    intro fs0
    exact ⟨rfl, fun k hk => Or.inl ⟨rfl, fun h => absurd h (List.not_mem_nil k)⟩⟩
  | cons u us ih =>
    intro fs0
    have hstep : remapUses gI sI (u :: us) vidx cur fs0 =
        remapUses gI sI us vidx cur
          (if (fs0.getD u default).complete then fs0
           else fs0.set u (sI (fs0.getD u default)
             (mapUpTo (fs0.getD u default).edges
               (fun y => if y = vidx then cur else y) (gI (fs0.getD u default))))) := by
      simp only [remapUses, List.foldl_cons]
    by_cases hcu : (fs0.getD u default).complete = true
    · rw [hstep, if_pos hcu]
      obtain ⟨hlen, hch⟩ := ih fs0
      refine ⟨hlen, fun k hk => ?_⟩
      rcases hch k hk with ⟨he, hm⟩ | ⟨hc, hm, he⟩
      · refine Or.inl ⟨he, fun hmem => ?_⟩
        rcases List.mem_cons.mp hmem with rfl | hmem2
        · exact hcu
        · exact hm hmem2
      · exact Or.inr ⟨hc, List.mem_cons_of_mem u hm, he⟩
    · have hcu2 : (fs0.getD u default).complete = false := by simpa using hcu
      rw [hstep, if_neg hcu]
      set τu := sI (fs0.getD u default)
        (mapUpTo (fs0.getD u default).edges
          (fun y => if y = vidx then cur else y) (gI (fs0.getD u default))) with hτu
      obtain ⟨hlen, hch⟩ := ih (fs0.set u τu)
      have hlens : (fs0.set u τu).length = fs0.length := by simp
      refine ⟨by rw [hlen, hlens], fun k hk => ?_⟩
      by_cases hku : k = u
      · subst hku
        by_cases hkl : k < fs0.length
        · have hset : (fs0.set k τu).getD k default = τu := by
            rw [List.getD_eq_getElem?_getD, List.getElem?_set_self hkl]
            rfl
          rcases hch k (by rw [hlens]; exact hk) with ⟨he, _⟩ | ⟨_, _, he⟩
          · rw [hset] at he
            exact Or.inr ⟨hcu2, by simp, he⟩
          · rw [hset] at he
            refine Or.inr ⟨hcu2, by simp, ?_⟩
            rw [he, hτu, hss, hgs, hse, mapUpTo_subst_idem]
        · omega
      · have hset : (fs0.set u τu).getD k default = fs0.getD k default := by
          rw [List.getD_eq_getElem?_getD,
            List.getElem?_set_ne (fun he => hku he.symm), ← List.getD_eq_getElem?_getD]
        rcases hch k (by rw [hlens]; exact hk) with ⟨he, hm⟩ | ⟨hc, hm, he⟩
        · rw [hset] at he
          refine Or.inl ⟨he, fun hmem => ?_⟩
          rcases List.mem_cons.mp hmem with rfl | hmem2
          · exact absurd rfl hku
          · rw [← hset]
            exact hm hmem2
        · rw [hset] at he hc
          exact Or.inr ⟨hc, List.mem_cons_of_mem u hm, he⟩

/-- Processing one corner preserves the pass invariant and extends the
bound on the already-processed corners of the current face. -/
theorem remapCorner_inv (hgs : ∀ f l, gI (sI f l) = l)
    (hss : ∀ f l l2, sI (sI f l) l2 = sI f l2)
    (hse : ∀ f l, (sI f l).edges = f.edges)
    (hsc : ∀ f l, (sI f l).complete = f.complete)
    (hobs : ∀ f l, obs (sI f l) = obs f)
    (hflt : ∀ a, fl (setFl a) = true)
    {attrs0 : List α} {faces0 : List Face}
    (i j : Nat) (hiF : i < faces0.length) (st : RemapState α)
    (h : RInv fl gI obs attrs0 faces0 i st)
    (hj : j < (gI (st.faces.getD i default)).length)
    (hB : ∀ j2, j2 < j → (gI (st.faces.getD i default)).getD j2 0 < st.curIndex) :
    RInv fl gI obs attrs0 faces0 i (remapCorner fl setFl gI sI i j st) ∧
    (∀ j2, j2 < j + 1 →
      (gI ((remapCorner fl setFl gI sI i j st).faces.getD i default)).getD j2 0 <
        (remapCorner fl setFl gI sI i j st).curIndex) := by
  have hvmem : (gI (st.faces.getD i default)).getD j 0 ∈ gI (st.faces.getD i default) := by
    rw [getD_lt hj]
    exact List.getElem_mem hj
  by_cases hfa : fl (st.attrs.getD ((gI (st.faces.getD i default)).getD j 0) default) = true
  · -- flushed corner: no state change
    have hid : remapCorner fl setFl gI sI i j st = st := by
      unfold remapCorner
      rw [if_pos hfa]
    rw [hid]
    refine ⟨h, fun j2 hj2 => ?_⟩
    rcases Nat.lt_succ_iff_lt_or_eq.mp hj2 with hlt | rfl
    · exact hB j2 hlt
    · rcases h.main i hiF _ hvmem with hlt | ⟨_, hfl2, _⟩
      · exact hlt
      · rw [hfl2] at hfa
        cases hfa
  · -- first touch
    have hfa2 : fl (st.attrs.getD ((gI (st.faces.getD i default)).getD j 0) default) = false := by
      simpa using hfa
    set vidx := (gI (st.faces.getD i default)).getD j 0 with hvidx
    have hstep : remapCorner fl setFl gI sI i j st =
        { attrs := st.attrs.set vidx (setFl (st.attrs.getD vidx default)),
          faces := remapUses gI sI (st.use.getD vidx []) vidx st.curIndex st.faces,
          use := st.use.set vidx [],
          newAttrs := st.newAttrs ++ [st.attrs.getD vidx default],
          curIndex := st.curIndex + 1 } := by
      unfold remapCorner
      dsimp only
      rw [← hvidx]
      rw [if_neg (by rw [hfa2]; exact Bool.false_ne_true)]
    have hiInc : (st.faces.getD i default).complete = false := by
      have := h.compIff i hiF
      by_cases hc : (st.faces.getD i default).complete = true
      · exact absurd (this.mp hc) (by omega)
      · simpa using hc
    have hcurN : st.curIndex ≤ attrs0.length := by
      rw [h.curCount, ← h.lenA]
      exact List.length_filter_le fl st.attrs
    have hvN : vidx < attrs0.length := by
      rcases h.main i hiF vidx hvmem with hlt | ⟨hN, _, _⟩
      · omega
      · exact hN
    have hvA : vidx < st.attrs.length := by rw [h.lenA]; exact hvN
    have hR := remapUses_spec hgs hss hse hsc vidx st.curIndex
      (st.use.getD vidx []) st.faces
    -- pointwise flag preservation of the redirect
    have hCP : ∀ k, k < faces0.length →
        ((remapUses gI sI (st.use.getD vidx []) vidx st.curIndex st.faces).getD
          k default).complete = (st.faces.getD k default).complete := by
      intro k hk
      rcases hR.2 k (by rw [h.lenF]; exact hk) with ⟨he, _⟩ | ⟨_, _, he⟩
      · rw [he]
      · rw [he, hsc]
    have hsetA : ∀ y, y ≠ vidx →
        (st.attrs.set vidx (setFl (st.attrs.getD vidx default))).getD y default =
          st.attrs.getD y default := by
      intro y hy
      simp [List.getD_eq_getElem?_getD, List.getElem?_set_ne (Ne.symm hy)]
    have hsetAv :
        (st.attrs.set vidx (setFl (st.attrs.getD vidx default))).getD vidx default =
          setFl (st.attrs.getD vidx default) := by
      rw [List.getD_eq_getElem?_getD, List.getElem?_set_self hvA]
      rfl
    have hsetU : ∀ y, y ≠ vidx →
        (st.use.set vidx []).getD y [] = st.use.getD y [] := by
      intro y hy
      simp [List.getD_eq_getElem?_getD, List.getElem?_set_ne (Ne.symm hy)]
    have hsetUv : ∀ k, k ∈ (st.use.set vidx []).getD vidx [] → False := by
      intro k hk
      by_cases hvU : vidx < st.use.length
      · rw [List.getD_eq_getElem?_getD, List.getElem?_set_self hvU] at hk
        simp at hk
      · rw [List.getD_eq_getElem?_getD, List.getElem?_set, if_pos rfl,
          if_neg hvU] at hk
        simp at hk
    rw [hstep]
    constructor
    · constructor
      · simpa using h.lenA
      · rw [hR.1]; exact h.lenF
      · simpa using h.lenU
      · simp [h.curNew]
      · rw [filter_length_set fl st.attrs vidx _ hvA hfa2 (hflt _), ← h.curCount]
      · intro x k hk
        by_cases hxv : x = vidx
        · subst hxv
          exact absurd hk (fun hk2 => hsetUv k hk2)
        · rw [hsetU x hxv] at hk
          exact h.useBound x k hk
      · intro k hk
        rw [hCP k hk]
        exact h.compIff k hk
      · intro k hk hc x hx
        rcases hR.2 k (by rw [h.lenF]; exact hk) with ⟨he, _⟩ | ⟨hinc, _, _⟩
        · rw [he] at hx hc
          have := h.compLT k hk hc x hx
          show x < st.curIndex + 1
          omega
        · rw [hCP k hk] at hc
          rw [hc] at hinc
          cases hinc
      · -- main invariant
        intro k hk x hx
        rcases hR.2 k (by rw [h.lenF]; exact hk) with ⟨he, hm⟩ | ⟨hinc, hmem, he⟩
        · rw [he] at hx
          rcases h.main k hk x hx with hlt | ⟨hN, hfl2, hu⟩
          · exact Or.inl (by show x < st.curIndex + 1; omega)
          · by_cases hxv : x = vidx
            · subst hxv
              have hcomp := hm hu
              have := h.compLT k hk hcomp vidx hx
              exact Or.inl (by show vidx < st.curIndex + 1; omega)
            · exact Or.inr ⟨hN, by rw [hsetA x hxv]; exact hfl2,
                by rw [hsetU x hxv]; exact hu⟩
        · rw [he, hgs,
            mapUpTo_eq_map _ _ _ (le_of_eq (h.wfg k hk))] at hx
          obtain ⟨y, hy, rfl⟩ := List.mem_map.mp hx
          by_cases hyv : y = vidx
          · subst hyv
            exact Or.inl (by simp)
          · rw [if_neg hyv]
            rcases h.main k hk y hy with hlt | ⟨hN, hfl2, hu⟩
            · exact Or.inl (by show y < st.curIndex + 1; omega)
            · exact Or.inr ⟨hN, by rw [hsetA y hyv]; exact hfl2,
                by rw [hsetU y hyv]; exact hu⟩
      · intro k hk
        rcases hR.2 k (by rw [h.lenF]; exact hk) with ⟨he, _⟩ | ⟨_, _, he⟩
        · rw [he]; exact h.wfg k hk
        · rw [he, hgs, hse, length_mapUpTo]; exact h.wfg k hk
      · intro k hk
        rcases hR.2 k (by rw [h.lenF]; exact hk) with ⟨he, _⟩ | ⟨_, _, he⟩
        · rw [he]; exact h.edgesPres k hk
        · rw [he, hse]; exact h.edgesPres k hk
      · intro b hb
        rcases List.mem_append.mp hb with hb | hb
        · exact h.newMem b hb
        · simp only [List.mem_singleton] at hb
          subst hb
          rw [h.attrOrig vidx hvN hfa2, getD_lt hvN]
          exact List.getElem_mem hvN
      · intro x hxN hfl2
        by_cases hxv : x = vidx
        · subst hxv
          rw [hsetAv, hflt] at hfl2
          cases hfl2
        · rw [hsetA x hxv] at hfl2 ⊢
          exact h.attrOrig x hxN hfl2
      · intro k hk
        rcases hR.2 k (by rw [h.lenF]; exact hk) with ⟨he, _⟩ | ⟨_, _, he⟩
        · rw [he]; exact h.obsPres k hk
        · rw [he, hobs]; exact h.obsPres k hk
    · -- processed-corner bound, extended to j
      intro j2 hj2
      have hface : ∀ x ∈ gI ((remapUses gI sI (st.use.getD vidx []) vidx st.curIndex
          st.faces).getD i default),
          x < st.curIndex + 1 → True := fun _ _ _ => trivial
      rcases hR.2 i (by rw [h.lenF]; exact hiF) with ⟨he, hm⟩ | ⟨_, _, he⟩
      · -- face i untouched: it was not recorded as a user of vidx
        rw [he]
        have hiNU : i ∉ st.use.getD vidx [] := by
          intro hu
          have := hm hu
          rw [hiInc] at this
          cases this
        rcases Nat.lt_succ_iff_lt_or_eq.mp hj2 with hlt | rfl
        · have := hB j2 hlt
          show (gI (st.faces.getD i default)).getD j2 0 < st.curIndex + 1
          omega
        · rw [← hvidx]
          rcases h.main i hiF vidx hvmem with hlt | ⟨_, _, hu⟩
          · show vidx < st.curIndex + 1
            omega
          · exact absurd hu hiNU
      · -- face i redirected: corner j now holds the fresh index
        rw [he, hgs, mapUpTo_eq_map _ _ _ (le_of_eq (h.wfg i hiF))]
        have hjlen : j2 < ((gI (st.faces.getD i default)).map
            (fun y => if y = vidx then st.curIndex else y)).length := by
          rw [List.length_map]
          omega
        rw [getD_lt hjlen, List.getElem_map]
        rcases Nat.lt_succ_iff_lt_or_eq.mp hj2 with hlt | rfl
        · have := hB j2 hlt
          rw [getD_lt (by omega : j2 < (gI (st.faces.getD i default)).length)] at this
          by_cases hyv : (gI (st.faces.getD i default))[j2] = vidx
          · rw [if_pos hyv]
            show st.curIndex < st.curIndex + 1
            omega
          · rw [if_neg hyv]
            show (gI (st.faces.getD i default))[j2] < st.curIndex + 1
            omega
        · have : (gI (st.faces.getD i default))[j2] = vidx := by
            rw [hvidx, getD_lt hj]
          rw [if_pos this]
          show st.curIndex < st.curIndex + 1
          omega

/-- getD of a replicated empty list is always empty. -/
theorem getD_replicate_nil (len x : Nat) :
    (List.replicate len ([] : List Nat)).getD x [] = [] := by
  by_cases hx : x < len
  · rw [getD_lt (by simpa using hx)]
    exact List.getElem_replicate _ _
  · exact getD_ge (by simpa using Nat.le_of_not_lt hx) []

/-- getD after an in-range set at the same position. -/
theorem getD_set_self_lt {β : Type _} (l : List β) (x : Nat) (b d : β)
    (h : x < l.length) : (l.set x b).getD x d = b := by
  rw [List.getD_eq_getElem?_getD, List.getElem?_set_self h]
  rfl

/-- getD after a set at a different position. -/
theorem getD_set_ne2 {β : Type _} (l : List β) (x y : Nat) (b d : β)
    (h : x ≠ y) : (l.set x b).getD y d = l.getD y d := by
  rw [List.getD_eq_getElem?_getD, List.getElem?_set_ne h, ← List.getD_eq_getElem?_getD]

/-- The face-use table has the attribute-array length, records only in-range
face positions, and records every face position at every corner value of that
face which is in range. -/
theorem buildFaceUse_spec (gI : Face → List Nat) (faces : List Face) (len : Nat) :
    (buildFaceUse gI faces len).length = len ∧
    (∀ x k, k ∈ (buildFaceUse gI faces len).getD x [] → k < faces.length) ∧
    (∀ k, k < faces.length → ∀ j, j < (faces.getD k default).edges →
      (gI (faces.getD k default)).getD j 0 < len →
      k ∈ (buildFaceUse gI faces len).getD ((gI (faces.getD k default)).getD j 0) []) := by
  have H := foldl_range_inv
    (fun u i =>
      (List.range (faces.getD i default).edges).foldl
        (fun u j => u.set ((gI (faces.getD i default)).getD j 0)
          (u.getD ((gI (faces.getD i default)).getD j 0) [] ++ [i])) u)
    (fun i u => u.length = len ∧
      (∀ x k, k ∈ u.getD x [] → k < i) ∧
      (∀ k, k < i → ∀ j, j < (faces.getD k default).edges →
        (gI (faces.getD k default)).getD j 0 < len →
        k ∈ u.getD ((gI (faces.getD k default)).getD j 0) []))
    faces.length (List.replicate len [])
    ⟨by simp, fun x k hk => absurd hk (by rw [getD_replicate_nil]; exact List.not_mem_nil k),
      fun k hk => absurd hk (Nat.not_lt_zero k)⟩
    (fun i u hi hP => by
      obtain ⟨hlen0, hbnd0, hmem0⟩ := hP
      have Hin := foldl_range_inv
        (fun u j => u.set ((gI (faces.getD i default)).getD j 0)
          (u.getD ((gI (faces.getD i default)).getD j 0) [] ++ [i]))
        (fun j u2 => u2.length = len ∧
          (∀ x k2, k2 ∈ u2.getD x [] → k2 ∈ u.getD x [] ∨ k2 = i) ∧
          (∀ x k2, k2 ∈ u.getD x [] → k2 ∈ u2.getD x []) ∧
          (∀ j2, j2 < j → (gI (faces.getD i default)).getD j2 0 < len →
            i ∈ u2.getD ((gI (faces.getD i default)).getD j2 0) []))
        (faces.getD i default).edges u
        ⟨hlen0, fun x k2 h2 => Or.inl h2, fun x k2 h2 => h2,
          fun j2 hj2 => absurd hj2 (Nat.not_lt_zero j2)⟩
        (fun j u2 hje hQ => by
          dsimp only
          obtain ⟨hlen, hnew, hmono, hcor⟩ := hQ
          set x0 := (gI (faces.getD i default)).getD j 0 with hx0
          refine ⟨by simp [hlen], ?_, ?_, ?_⟩
          · intro x k2 h2
            by_cases hxx : x = x0
            · subst hxx
              by_cases hlt : x0 < u2.length
              · rw [getD_set_self_lt _ _ _ _ hlt] at h2
                rcases List.mem_append.mp h2 with h2 | h2
                · exact hnew x0 k2 h2
                · exact Or.inr (List.mem_singleton.mp h2)
              · have h3 : (u2.set x0 (u2.getD x0 [] ++ [i])).getD x0 [] = [] := by
                  rw [List.getD_eq_getElem?_getD, List.getElem?_set, if_pos rfl, if_neg hlt]
                  rfl
                rw [h3] at h2
                exact absurd h2 (List.not_mem_nil k2)
            · rw [getD_set_ne2 _ _ _ _ _ (fun he => hxx he.symm)] at h2
              exact hnew x k2 h2

          · intro x k2 h2
            have h3 := hmono x k2 h2
            by_cases hxx : x = x0
            · subst hxx
              by_cases hlt : x0 < u2.length
              · rw [getD_set_self_lt _ _ _ _ hlt]
                exact List.mem_append.mpr (Or.inl h3)
              · rw [getD_ge (Nat.le_of_not_lt hlt) []] at h3
                exact absurd h3 (List.not_mem_nil k2)
            · rw [getD_set_ne2 _ _ _ _ _ (fun he => hxx he.symm)]
              exact h3
          · intro j2 hj2 hxl
            rcases Nat.lt_succ_iff_lt_or_eq.mp hj2 with hlt2 | rfl
            · have h3 := hcor j2 hlt2 hxl
              by_cases hyx : (gI (faces.getD i default)).getD j2 0 = x0
              · rw [hyx] at h3 hxl ⊢
                have hlt : x0 < u2.length := by rw [hlen]; exact hxl
                rw [getD_set_self_lt _ _ _ _ hlt]
                exact List.mem_append.mpr (Or.inl h3)
              · rw [getD_set_ne2 _ _ _ _ _ (fun he => hyx he.symm)]
                exact h3
            · rw [← hx0] at hxl ⊢
              have hlt : x0 < u2.length := by rw [hlen]; exact hxl
              rw [getD_set_self_lt _ _ _ _ hlt]
              exact List.mem_append.mpr (Or.inr (List.mem_singleton.mpr rfl)))
      refine ⟨Hin.1, ?_, ?_⟩
      · intro x k2 h2
        rcases Hin.2.1 x k2 h2 with h3 | rfl
        · exact Nat.lt_succ_of_lt (hbnd0 x k2 h3)
        · exact Nat.lt_succ_self k2
      · intro k hk j hje hxl
        rcases Nat.lt_succ_iff_lt_or_eq.mp hk with hlt | rfl
        · exact Hin.2.2.1 _ k (hmem0 k hlt j hje hxl)
        · exact Hin.2.2.2 j hje hxl)
  exact H

/-- Marking the current face complete after all its corners are processed
advances the outer cursor of the pass invariant by one. -/
theorem rinv_setComplete (hgC : ∀ f, gI (setComplete f) = gI f)
    (hobsC : ∀ f, obs (setComplete f) = obs f)
    {attrs0 : List α} {faces0 : List Face}
    (i : Nat) (hiF : i < faces0.length) (st1 : RemapState α)
    (hR1 : RInv fl gI obs attrs0 faces0 i st1)
    (hB1 : ∀ j2, j2 < (gI (st1.faces.getD i default)).length →
      (gI (st1.faces.getD i default)).getD j2 0 < st1.curIndex) :
    RInv fl gI obs attrs0 faces0 (i + 1)
      { st1 with faces := st1.faces.set i (setComplete (st1.faces.getD i default)) } := by
  have hiL : i < st1.faces.length := by rw [hR1.lenF]; exact hiF
  have hgetI : (st1.faces.set i (setComplete (st1.faces.getD i default))).getD i default =
      setComplete (st1.faces.getD i default) := by
    rw [List.getD_eq_getElem?_getD, List.getElem?_set_self hiL]
    rfl
  have hgetNe : ∀ k, k ≠ i →
      (st1.faces.set i (setComplete (st1.faces.getD i default))).getD k default =
        st1.faces.getD k default := by
    intro k hk
    rw [List.getD_eq_getElem?_getD, List.getElem?_set_ne (fun he2 => hk he2.symm),
      ← List.getD_eq_getElem?_getD]
  have hxlt : ∀ x ∈ gI (setComplete (st1.faces.getD i default)), x < st1.curIndex := by
    intro x hx
    rw [hgC] at hx
    obtain ⟨j2, hj2, rfl⟩ := List.mem_iff_getElem.mp hx
    have := hB1 j2 hj2
    rw [getD_lt hj2] at this
    exact this
  refine ⟨?_, ?_, ?_, ?_, ?_, ?_, ?_, ?_, ?_, ?_, ?_, ?_, ?_, ?_⟩
  · exact hR1.lenA
  · show (st1.faces.set i (setComplete (st1.faces.getD i default))).length = faces0.length
    rw [List.length_set]
    exact hR1.lenF
  · exact hR1.lenU
  · exact hR1.curNew
  · exact hR1.curCount
  · exact hR1.useBound
  · show ∀ k, k < faces0.length →
      (((st1.faces.set i (setComplete (st1.faces.getD i default))).getD k default).complete =
        true ↔ k < i + 1)
    intro k hk
    by_cases hki : k = i
    · subst hki
      rw [hgetI]
      exact ⟨fun _ => Nat.lt_succ_self k, fun _ => rfl⟩
    · rw [hgetNe k hki, hR1.compIff k hk]
      omega
  · show ∀ k, k < faces0.length →
      ((st1.faces.set i (setComplete (st1.faces.getD i default))).getD k default).complete =
        true →
      ∀ x ∈ gI ((st1.faces.set i (setComplete (st1.faces.getD i default))).getD k default),
        x < st1.curIndex
    intro k hk hc x hx
    by_cases hki : k = i
    · subst hki
      rw [hgetI] at hx
      exact hxlt x hx
    · rw [hgetNe k hki] at hc hx
      exact hR1.compLT k hk hc x hx
  · show ∀ k, k < faces0.length →
      ∀ x ∈ gI ((st1.faces.set i (setComplete (st1.faces.getD i default))).getD k default),
        x < st1.curIndex ∨ (x < attrs0.length ∧ fl (st1.attrs.getD x default) = false ∧
          k ∈ st1.use.getD x [])
    intro k hk x hx
    by_cases hki : k = i
    · subst hki
      rw [hgetI] at hx
      exact Or.inl (hxlt x hx)
    · rw [hgetNe k hki] at hx
      exact hR1.main k hk x hx
  · show ∀ k, k < faces0.length →
      (gI ((st1.faces.set i (setComplete (st1.faces.getD i default))).getD k default)).length =
        ((st1.faces.set i (setComplete (st1.faces.getD i default))).getD k default).edges
    intro k hk
    by_cases hki : k = i
    · subst hki
      rw [hgetI, hgC]
      show (gI (st1.faces.getD k default)).length = (st1.faces.getD k default).edges
      exact hR1.wfg k hk
    · rw [hgetNe k hki]
      exact hR1.wfg k hk
  · show ∀ k, k < faces0.length →
      ((st1.faces.set i (setComplete (st1.faces.getD i default))).getD k default).edges =
        (faces0.getD k default).edges
    intro k hk
    by_cases hki : k = i
    · subst hki
      rw [hgetI]
      show (st1.faces.getD k default).edges = (faces0.getD k default).edges
      exact hR1.edgesPres k hk
    · rw [hgetNe k hki]
      exact hR1.edgesPres k hk
  · exact hR1.newMem
  · exact hR1.attrOrig
  · show ∀ k, k < faces0.length →
      obs ((st1.faces.set i (setComplete (st1.faces.getD i default))).getD k default) =
        obs (faces0.getD k default)
    intro k hk
    by_cases hki : k = i
    · subst hki
      rw [hgetI, hobsC]
      exact hR1.obsPres k hk
    · rw [hgetNe k hki]
      exact hR1.obsPres k hk

/-- Processing one full face of a remap pass advances the invariant cursor by
one. -/
theorem remapFace_inv (hgs : ∀ f l, gI (sI f l) = l)
    (hss : ∀ f l l2, sI (sI f l) l2 = sI f l2)
    (hse : ∀ f l, (sI f l).edges = f.edges)
    (hsc : ∀ f l, (sI f l).complete = f.complete)
    (hobs : ∀ f l, obs (sI f l) = obs f)
    (hflt : ∀ a, fl (setFl a) = true)
    (hgC : ∀ f, gI (setComplete f) = gI f)
    (hobsC : ∀ f, obs (setComplete f) = obs f)
    {attrs0 : List α} {faces0 : List Face}
    (i : Nat) (hiF : i < faces0.length) (st : RemapState α)
    (h : RInv fl gI obs attrs0 faces0 i st) :
    RInv fl gI obs attrs0 faces0 (i + 1) (remapFace fl setFl gI sI i st) := by
  have heF : (st.faces.getD i default).edges = (faces0.getD i default).edges :=
    h.edgesPres i hiF
  have hinner := foldl_range_inv (fun st j => remapCorner fl setFl gI sI i j st)
    (fun j st2 => RInv fl gI obs attrs0 faces0 i st2 ∧
      ∀ j2, j2 < j → (gI (st2.faces.getD i default)).getD j2 0 < st2.curIndex)
    (st.faces.getD i default).edges st
    ⟨h, fun j2 hj2 => absurd hj2 (Nat.not_lt_zero j2)⟩
    (fun j stx hje hQ => by
      have hj : j < (gI (stx.faces.getD i default)).length := by
        rw [hQ.1.wfg i hiF, hQ.1.edgesPres i hiF]
        omega
      exact remapCorner_inv hgs hss hse hsc hobs hflt i j hiF stx hQ.1 hj hQ.2)
  obtain ⟨hR1, hB1⟩ := hinner
  have hB2 : ∀ j2, j2 < (gI (((List.range (st.faces.getD i default).edges).foldl
        (fun st j => remapCorner fl setFl gI sI i j st) st).faces.getD i default)).length →
      (gI (((List.range (st.faces.getD i default).edges).foldl
        (fun st j => remapCorner fl setFl gI sI i j st) st).faces.getD i default)).getD j2 0 <
        ((List.range (st.faces.getD i default).edges).foldl
          (fun st j => remapCorner fl setFl gI sI i j st) st).curIndex := by
    intro j2 hj2
    refine hB1 j2 ?_
    rw [hR1.wfg i hiF, hR1.edgesPres i hiF] at hj2
    omega
  exact rinv_setComplete hgC hobsC i hiF _ hR1 hB2

/-- Full characterisation of one remap pass, for an all-unflushed attribute
array and faces whose class corners are in range with per-face class-array
lengths equal to the degree: the face count is unchanged, every class corner
of every output face indexes the rebuilt attribute array, every rebuilt
attribute comes from the input array, and degrees, class-array lengths and
all observed fields are preserved. -/
theorem remapPass_spec (hgs : ∀ f l, gI (sI f l) = l)
    (hss : ∀ f l l2, sI (sI f l) l2 = sI f l2)
    (hse : ∀ f l, (sI f l).edges = f.edges)
    (hsc : ∀ f l, (sI f l).complete = f.complete)
    (hobs : ∀ f l, obs (sI f l) = obs f)
    (hflt : ∀ a, fl (setFl a) = true)
    (hgC : ∀ f, gI (setComplete f) = gI f)
    (hobsC : ∀ f, obs (setComplete f) = obs f)
    (hgR : ∀ f, gI { f with complete := false } = gI f)
    (hobsR : ∀ f, obs { f with complete := false } = obs f)
    (attrs : List α) (faces : List Face)
    (hfl0 : ∀ a ∈ attrs, fl a = false)
    (hval : ∀ k, k < faces.length → ∀ x ∈ gI (faces.getD k default), x < attrs.length)
    (hwfg : FacesWFg gI faces)
    (na : List α) (nf : List Face)
    (hp : remapPass fl setFl gI sI attrs faces = (na, nf)) :
    nf.length = faces.length ∧
    (∀ k, k < faces.length → ∀ x ∈ gI (nf.getD k default), x < na.length) ∧
    (∀ a ∈ na, a ∈ attrs) ∧
    (∀ k, k < faces.length → (nf.getD k default).edges = (faces.getD k default).edges) ∧
    FacesWFg gI nf ∧
    (∀ k, k < faces.length → obs (nf.getD k default) = obs (faces.getD k default)) := by
  have hB := buildFaceUse_spec gI (faces.map fun (f : Face) => { f with complete := false }) attrs.length
  have hget0 : ∀ k, k < faces.length →
      (faces.map fun (f : Face) => { f with complete := false }).getD k default =
        { faces.getD k default with complete := false } :=
    fun k hk => getD_map_lt hk
  have h0 : RInv fl gI obs attrs (faces.map fun (f : Face) => { f with complete := false }) 0
      { attrs := attrs,
        faces := faces.map fun (f : Face) => { f with complete := false },
        use := buildFaceUse gI (faces.map fun (f : Face) => { f with complete := false }) attrs.length,
        newAttrs := [],
        curIndex := 0 } := by
    have hfilt : attrs.filter fl = [] :=
      List.filter_eq_nil_iff.mpr (fun a ha => by simp [hfl0 a ha])
    refine ⟨rfl, rfl, hB.1, rfl, by simp [hfilt], fun x k hk => hB.2.1 x k hk,
      ?_, ?_, ?_, ?_, fun k hk => rfl, fun a ha => absurd ha (List.not_mem_nil a),
      fun x hx hf2 => rfl, fun k hk => rfl⟩
    · show ∀ k, k < (faces.map fun (f : Face) => { f with complete := false }).length →
        (((faces.map fun (f : Face) => { f with complete := false }).getD k default).complete =
          true ↔ k < 0)
      intro k hk
      rw [hget0 k (by simpa using hk)]
      simp
    · show ∀ k, k < (faces.map fun (f : Face) => { f with complete := false }).length →
        ((faces.map fun (f : Face) => { f with complete := false }).getD k default).complete = true →
        ∀ x ∈ gI ((faces.map fun (f : Face) => { f with complete := false }).getD k default), x < 0
      intro k hk hc
      rw [hget0 k (by simpa using hk)] at hc
      simp at hc
    · show ∀ k, k < (faces.map fun (f : Face) => { f with complete := false }).length →
        ∀ x ∈ gI ((faces.map fun (f : Face) => { f with complete := false }).getD k default),
          x < 0 ∨ (x < attrs.length ∧ fl (attrs.getD x default) = false ∧
            k ∈ (buildFaceUse gI (faces.map fun (f : Face) => { f with complete := false })
              attrs.length).getD x [])
      intro k hk x hx
      have hk2 : k < faces.length := by simpa using hk
      rw [hget0 k hk2, hgR] at hx
      have hxl := hval k hk2 x hx
      refine Or.inr ⟨hxl, ?_, ?_⟩
      · rw [getD_lt hxl]
        exact hfl0 _ (List.getElem_mem hxl)
      · obtain ⟨j, hj, rfl⟩ := List.mem_iff_getElem.mp hx
        have hg0 : gI ((faces.map fun (f : Face) => { f with complete := false }).getD k default) =
            gI (faces.getD k default) := by
          rw [hget0 k hk2, hgR]
        have hje : j < ((faces.map fun (f : Face) => { f with complete := false }).getD
            k default).edges := by
          rw [hget0 k hk2]
          show j < (faces.getD k default).edges
          rw [← hwfg k hk2]
          exact hj
        have hmem := hB.2.2 k (by simpa using hk2) j hje
          (by rw [hg0, getD_lt hj]; exact hval k hk2 _ (List.getElem_mem hj))
        rw [hg0, getD_lt hj] at hmem
        exact hmem
    · show ∀ k, k < (faces.map fun (f : Face) => { f with complete := false }).length →
        (gI ((faces.map fun (f : Face) => { f with complete := false }).getD k default)).length =
          ((faces.map fun (f : Face) => { f with complete := false }).getD k default).edges
      intro k hk
      have hk2 : k < faces.length := by simpa using hk
      rw [hget0 k hk2, hgR]
      show (gI (faces.getD k default)).length = (faces.getD k default).edges
      exact hwfg k hk2
  have hF := foldl_range_inv (fun st i => remapFace fl setFl gI sI i st)
    (fun i st => RInv fl gI obs attrs (faces.map fun (f : Face) => { f with complete := false }) i st)
    (faces.map fun (f : Face) => { f with complete := false }).length
    { attrs := attrs,
      faces := faces.map fun (f : Face) => { f with complete := false },
      use := buildFaceUse gI (faces.map fun (f : Face) => { f with complete := false }) attrs.length,
      newAttrs := [],
      curIndex := 0 }
    h0
    (fun i stx hi hR2 => remapFace_inv hgs hss hse hsc hobs hflt hgC hobsC i hi stx hR2)
  have hsplit : remapPass fl setFl gI sI attrs faces =
      (((List.range (faces.map fun (f : Face) => { f with complete := false }).length).foldl
          (fun st i => remapFace fl setFl gI sI i st)
          { attrs := attrs,
            faces := faces.map fun (f : Face) => { f with complete := false },
            use := buildFaceUse gI (faces.map fun (f : Face) => { f with complete := false })
              attrs.length,
            newAttrs := [],
            curIndex := 0 }).newAttrs,
        ((List.range (faces.map fun (f : Face) => { f with complete := false }).length).foldl
          (fun st i => remapFace fl setFl gI sI i st)
          { attrs := attrs,
            faces := faces.map fun (f : Face) => { f with complete := false },
            use := buildFaceUse gI (faces.map fun (f : Face) => { f with complete := false })
              attrs.length,
            newAttrs := [],
            curIndex := 0 }).faces) := rfl
  rw [hsplit] at hp
  have hna := congrArg Prod.fst hp
  have hnf := congrArg Prod.snd hp
  dsimp only at hna hnf
  subst hna
  subst hnf
  refine ⟨by simpa using hF.lenF, ?_, fun a ha => hF.newMem a ha, ?_, ?_, ?_⟩
  · intro k hk x hx
    have hk0 : k < (faces.map fun (f : Face) => { f with complete := false }).length := by
      simpa using hk
    have hc := (hF.compIff k hk0).mpr (by simpa using hk)
    have hlt := hF.compLT k hk0 hc x hx
    rw [hF.curNew] at hlt
    exact hlt
  · intro k hk
    have := hF.edgesPres k (by simpa using hk)
    rw [this, hget0 k hk]
  · intro k hk
    have hk0 : k < (faces.map fun (f : Face) => { f with complete := false }).length := by
      rw [← hF.lenF]
      exact hk
    exact hF.wfg k hk0
  · intro k hk
    have := hF.obsPres k (by simpa using hk)
    rw [this, hget0 k hk, hobsR]

/-- Unconditionally, a remap pass keeps the face count and every observed
face field, provided the class write, the completion mark and the completion
reset preserve the observation. -/
theorem remapPass_preserves_obs (hgs : ∀ f l, gI (sI f l) = l)
    (hss : ∀ f l l2, sI (sI f l) l2 = sI f l2)
    (hse : ∀ f l, (sI f l).edges = f.edges)
    (hsc : ∀ f l, (sI f l).complete = f.complete)
    (hobs : ∀ f l, obs (sI f l) = obs f)
    (hobsC : ∀ f, obs (setComplete f) = obs f)
    (hobsR : ∀ f, obs { f with complete := false } = obs f)
    (attrs : List α) (faces : List Face) :
    (remapPass fl setFl gI sI attrs faces).2.length = faces.length ∧
    ∀ k, k < faces.length →
      obs ((remapPass fl setFl gI sI attrs faces).2.getD k default) =
        obs (faces.getD k default) := by
  have hcorner : ∀ i j (st : RemapState α),
      st.faces.length = faces.length →
      (∀ k, k < faces.length →
        obs (st.faces.getD k default) = obs (faces.getD k default)) →
      (remapCorner fl setFl gI sI i j st).faces.length = faces.length ∧
      ∀ k, k < faces.length →
        obs ((remapCorner fl setFl gI sI i j st).faces.getD k default) =
          obs (faces.getD k default) := by
    intro i j st hL hO
    by_cases hfa : fl (st.attrs.getD ((gI (st.faces.getD i default)).getD j 0) default) = true
    · have hid : remapCorner fl setFl gI sI i j st = st := by
        unfold remapCorner
        rw [if_pos hfa]
      rw [hid]
      exact ⟨hL, hO⟩
    · set vidx := (gI (st.faces.getD i default)).getD j 0 with hvidx
      have hstep : remapCorner fl setFl gI sI i j st =
          { attrs := st.attrs.set vidx (setFl (st.attrs.getD vidx default)),
            faces := remapUses gI sI (st.use.getD vidx []) vidx st.curIndex st.faces,
            use := st.use.set vidx [],
            newAttrs := st.newAttrs ++ [st.attrs.getD vidx default],
            curIndex := st.curIndex + 1 } := by
        unfold remapCorner
        dsimp only
        rw [← hvidx]
        rw [if_neg hfa]
      have hR := remapUses_spec hgs hss hse hsc vidx st.curIndex
        (st.use.getD vidx []) st.faces
      rw [hstep]
      refine ⟨by rw [hR.1]; exact hL, ?_⟩
      intro k hk
      have hkL : k < st.faces.length := by rw [hL]; exact hk
      rcases hR.2 k hkL with ⟨he, _⟩ | ⟨_, _, he⟩
      · rw [he]
        exact hO k hk
      · rw [he, hobs]
        exact hO k hk
  have hface : ∀ i (st : RemapState α),
      st.faces.length = faces.length →
      (∀ k, k < faces.length →
        obs (st.faces.getD k default) = obs (faces.getD k default)) →
      (remapFace fl setFl gI sI i st).faces.length = faces.length ∧
      ∀ k, k < faces.length →
        obs ((remapFace fl setFl gI sI i st).faces.getD k default) =
          obs (faces.getD k default) := by
    intro i st hL hO
    unfold remapFace
    dsimp only
    have hin := foldl_mem_inv (fun st j => remapCorner fl setFl gI sI i j st)
      (fun st2 => st2.faces.length = faces.length ∧
        ∀ k, k < faces.length →
          obs (st2.faces.getD k default) = obs (faces.getD k default))
      (List.range (st.faces.getD i default).edges) st ⟨hL, hO⟩
      (fun stx j hj hP => hcorner i j stx hP.1 hP.2)
    set st1 := (List.range (st.faces.getD i default).edges).foldl
      (fun st j => remapCorner fl setFl gI sI i j st) st with hst1
    refine ⟨?_, ?_⟩
    · show (st1.faces.set i (setComplete (st1.faces.getD i default))).length = faces.length
      rw [List.length_set]
      exact hin.1
    · intro k hk
      show obs ((st1.faces.set i (setComplete (st1.faces.getD i default))).getD k default) =
        obs (faces.getD k default)
      by_cases hki : k = i
      · subst hki
        have hkA : k < st1.faces.length := by rw [hin.1]; exact hk
        rw [getD_set_self_lt _ _ _ _ hkA, hobsC]
        exact hin.2 k hk
      · rw [getD_set_ne2 _ _ _ _ _ (fun he => hki he.symm)]
        exact hin.2 k hk
  have hreset : ∀ k, k < faces.length →
      obs ((faces.map fun (f : Face) => { f with complete := false }).getD k default) =
        obs (faces.getD k default) := by
    intro k hk
    rw [getD_map_lt hk, hobsR]
  have hfold := foldl_mem_inv (fun st i => remapFace fl setFl gI sI i st)
    (fun st2 => st2.faces.length = faces.length ∧
      ∀ k, k < faces.length →
        obs (st2.faces.getD k default) = obs (faces.getD k default))
    (List.range (faces.map fun (f : Face) => { f with complete := false }).length)
    { attrs := attrs,
      faces := faces.map fun (f : Face) => { f with complete := false },
      use := buildFaceUse gI (faces.map fun (f : Face) => { f with complete := false })
        attrs.length,
      newAttrs := [],
      curIndex := 0 }
    ⟨by simp, hreset⟩
    (fun stx i hi hP => hface i stx hP.1 hP.2)
  exact ⟨hfold.1, hfold.2⟩

end RemapProofs

set_option maxHeartbeats 1600000 in
/-- OptimiseMesh preserves the stage-boundary invariant: on a well-formed,
index-valid store with clear markers, the optimised store is well-formed,
index-valid and has clear markers again. -/
theorem OptimiseMesh_valid (bs : BoundSphere) (s : Store) (hwf : StoreWF s)
    (hval : StoreValid s) (hunf : StoreUnflushed s) :
    StoreWF (OptimiseMesh bs s) ∧ StoreValid (OptimiseMesh bs s) ∧
      StoreUnflushed (OptimiseMesh bs s) ∧
      (∀ a ∈ (OptimiseMesh bs s).vertices, a ∈ s.vertices) ∧
      (∀ a ∈ (OptimiseMesh bs s).normals, a ∈ s.normals) ∧
      (∀ a ∈ (OptimiseMesh bs s).textureCoords, a ∈ s.textureCoords) := by
  obtain ⟨hg, hgEq⟩ : ∃ g : Face → Nat,
      (assignMorton bs s).faces = s.faces.map fun f => { f with mortonCode := g f } :=
    ⟨_, rfl⟩
  set sorted := sortFacesByMorton (assignMorton bs s).faces with hsortedDef
  set pv := remapPass vFlushed vFlush vGet vSet (assignMorton bs s).vertices sorted
    with hpvDef
  set pn := remapPass nFlushed nFlush nGet nSet (assignMorton bs s).normals pv.2 with hpnDef
  set pu := remapPass tcFlushed tcFlush uvGet uvSet (assignMorton bs s).textureCoords pn.2
    with hpuDef
  have hOM : OptimiseMesh bs s =
      { vertices := pv.1, normals := pn.1, textureCoords := pu.1, faces := pu.2 } := rfl
  -- facts about the sorted face list entering the first pass
  have hmemSorted : ∀ f ∈ sorted,
      FaceValid s.vertices.length s.normals.length s.textureCoords.length f ∧ FaceWF f := by
    intro f hf
    have hf2 : f ∈ (assignMorton bs s).faces := by
      rw [hsortedDef] at hf
      exact ((List.perm_insertionSort mortonLE (assignMorton bs s).faces).mem_iff).mp hf
    rw [hgEq] at hf2
    obtain ⟨f0, hf0, rfl⟩ := List.mem_map.mp hf2
    exact ⟨hval f0 hf0, hwf f0 hf0⟩
  have hsortK : ∀ k, k < sorted.length →
      FaceValid s.vertices.length s.normals.length s.textureCoords.length
        (sorted.getD k default) ∧ FaceWF (sorted.getD k default) := by
    intro k hk
    rw [getD_lt hk]
    exact hmemSorted _ (List.getElem_mem hk)
  -- first pass: vertices
  have hp1 : remapPass vFlushed vFlush vGet vSet s.vertices sorted = (pv.1, pv.2) := rfl
  obtain ⟨hL1, hV1, hM1, hE1, hW1, hO1⟩ :=
    @remapPass_spec Vertex (List Nat × List Nat × List Nat) _ vFlushed vFlush vGet vSet
      (fun f => (f.n, f.uv, f.t))
      (fun _ _ => rfl) (fun _ _ _ => rfl) (fun _ _ => rfl) (fun _ _ => rfl) (fun _ _ => rfl)
      (fun _ => rfl) (fun _ => rfl) (fun _ => rfl) (fun _ => rfl) (fun _ => rfl)
      s.vertices sorted hunf.1
      (fun k hk x hx => ((hsortK k hk).1).1 x hx)
      (fun k hk => ((hsortK k hk).2).1)
      pv.1 pv.2 hp1
  have hN1 : ∀ k, k < sorted.length →
      (pv.2.getD k default).n = (sorted.getD k default).n :=
    fun k hk => congrArg Prod.fst (hO1 k hk)
  have hU1 : ∀ k, k < sorted.length →
      (pv.2.getD k default).uv = (sorted.getD k default).uv :=
    fun k hk => congrArg (fun p => p.2.1) (hO1 k hk)
  have hT1 : ∀ k, k < sorted.length →
      (pv.2.getD k default).t = (sorted.getD k default).t :=
    fun k hk => congrArg (fun p => p.2.2) (hO1 k hk)
  -- second pass: normals
  have hp2 : remapPass nFlushed nFlush nGet nSet s.normals pv.2 = (pn.1, pn.2) := rfl
  obtain ⟨hL2, hV2, hM2, hE2, hW2, hO2⟩ :=
    @remapPass_spec Normal (List Nat × List Nat × List Nat) _ nFlushed nFlush nGet nSet
      (fun f => (f.v, f.uv, f.t))
      (fun _ _ => rfl) (fun _ _ _ => rfl) (fun _ _ => rfl) (fun _ _ => rfl) (fun _ _ => rfl)
      (fun _ => rfl) (fun _ => rfl) (fun _ => rfl) (fun _ => rfl) (fun _ => rfl)
      s.normals pv.2 hunf.2.1
      (fun k hk x hx => ((hsortK k (by rw [← hL1]; exact hk)).1).2.1 x
        (by rw [← hN1 k (by rw [← hL1]; exact hk)]; exact hx))
      (fun k hk => by
        rw [show nGet (pv.2.getD k default) = (pv.2.getD k default).n from rfl,
          hN1 k (by rw [← hL1]; exact hk), hE1 k (by rw [← hL1]; exact hk)]
        exact ((hsortK k (by rw [← hL1]; exact hk)).2).2.1)
      pn.1 pn.2 hp2
  have hv2 : ∀ k, k < pv.2.length →
      (pn.2.getD k default).v = (pv.2.getD k default).v :=
    fun k hk => congrArg Prod.fst (hO2 k hk)
  have hU2 : ∀ k, k < pv.2.length →
      (pn.2.getD k default).uv = (pv.2.getD k default).uv :=
    fun k hk => congrArg (fun p => p.2.1) (hO2 k hk)
  have hT2 : ∀ k, k < pv.2.length →
      (pn.2.getD k default).t = (pv.2.getD k default).t :=
    fun k hk => congrArg (fun p => p.2.2) (hO2 k hk)
  -- third pass: texture coordinates
  have hp3 : remapPass tcFlushed tcFlush uvGet uvSet s.textureCoords pn.2 = (pu.1, pu.2) :=
    rfl
  obtain ⟨hL3, hV3, hM3, hE3, hW3, hO3⟩ :=
    @remapPass_spec TextureCoord (List Nat × List Nat × List Nat) _ tcFlushed tcFlush
      uvGet uvSet
      (fun f => (f.v, f.n, f.t))
      (fun _ _ => rfl) (fun _ _ _ => rfl) (fun _ _ => rfl) (fun _ _ => rfl) (fun _ _ => rfl)
      (fun _ => rfl) (fun _ => rfl) (fun _ => rfl) (fun _ => rfl) (fun _ => rfl)
      s.textureCoords pn.2 hunf.2.2
      (fun k hk x hx => by
        have hk1 : k < pv.2.length := by rw [← hL2]; exact hk
        have hk0 : k < sorted.length := by rw [← hL1]; exact hk1
        refine ((hsortK k hk0).1).2.2 x ?_
        rw [← hU1 k hk0, ← hU2 k hk1]
        exact hx)
      (fun k hk => by
        have hk1 : k < pv.2.length := by rw [← hL2]; exact hk
        have hk0 : k < sorted.length := by rw [← hL1]; exact hk1
        rw [show uvGet (pn.2.getD k default) = (pn.2.getD k default).uv from rfl,
          hU2 k hk1, hU1 k hk0, hE2 k hk1, hE1 k hk0]
        exact ((hsortK k hk0).2).2.2.1)
      pu.1 pu.2 hp3
  have hv3 : ∀ k, k < pn.2.length →
      (pu.2.getD k default).v = (pn.2.getD k default).v :=
    fun k hk => congrArg Prod.fst (hO3 k hk)
  have hN3 : ∀ k, k < pn.2.length →
      (pu.2.getD k default).n = (pn.2.getD k default).n :=
    fun k hk => congrArg (fun p => p.2.1) (hO3 k hk)
  have hT3 : ∀ k, k < pn.2.length →
      (pu.2.getD k default).t = (pn.2.getD k default).t :=
    fun k hk => congrArg (fun p => p.2.2) (hO3 k hk)
  rw [hOM]
  have hposition : ∀ f ∈ pu.2, ∃ k, k < pu.2.length ∧ pu.2.getD k default = f := by
    intro f hf
    obtain ⟨k, hk, rfl⟩ := List.mem_iff_getElem.mp hf
    exact ⟨k, hk, getD_lt hk default⟩
  refine ⟨?_, ?_, ⟨?_, ?_, ?_⟩, ?_, ?_, ?_⟩
  · -- well-formedness
    intro f hf
    obtain ⟨k, hk, rfl⟩ := hposition f hf
    have hk2 : k < pn.2.length := by rw [← hL3]; exact hk
    have hk1 : k < pv.2.length := by rw [← hL2]; exact hk2
    have hk0 : k < sorted.length := by rw [← hL1]; exact hk1
    refine ⟨?_, ?_, ?_, ?_⟩
    · rw [hv3 k hk2, hv2 k hk1, hE3 k hk2, hE2 k hk1]
      exact hW1 k hk1
    · rw [hN3 k hk2, hE3 k hk2]
      exact hW2 k hk2
    · exact hW3 k hk
    · rw [hT3 k hk2, hT2 k hk1, hT1 k hk0]
      exact ((hsortK k hk0).2).2.2.2
  · -- index validity
    intro f hf
    obtain ⟨k, hk, rfl⟩ := hposition f hf
    have hk2 : k < pn.2.length := by rw [← hL3]; exact hk
    have hk1 : k < pv.2.length := by rw [← hL2]; exact hk2
    have hk0 : k < sorted.length := by rw [← hL1]; exact hk1
    refine ⟨?_, ?_, ?_⟩
    · intro x hx
      have hx2 : x ∈ (pv.2.getD k default).v := by
        rw [← hv2 k hk1, ← hv3 k hk2]
        exact hx
      exact hV1 k hk0 x hx2
    · intro x hx
      have hx2 : x ∈ (pn.2.getD k default).n := by
        rw [← hN3 k hk2]
        exact hx
      exact hV2 k hk1 x hx2
    · exact fun x hx => hV3 k hk2 x hx
  · exact fun a ha => hunf.1 a (hM1 a ha)
  · exact fun a ha => hunf.2.1 a (hM2 a ha)
  · exact fun a ha => hunf.2.2 a (hM3 a ha)
  · exact fun a ha => hM1 a ha
  · exact fun a ha => hM2 a ha
  · exact fun a ha => hM3 a ha

/-- C1: at every stage boundary — after quad triangulation, after
deduplication, and after cache-locality optimisation — every entry of every
face's vertex, normal and uv index array is a valid index into the
corresponding attribute array (strictly below that array's length), for
every well-formed input store whose transient markers are clear. -/
theorem stage_boundaries_preserve_index_validity (s : Store)
    (hwf : StoreWF s) (hval : StoreValid s) (hunf : StoreUnflushed s) :
    (∀ s2, TriangulateQuads s = some s2 → StoreValid s2) ∧
    (∀ vT nT uvT, StoreValid (DeDupe vT nT uvT s).1) ∧
    (∀ bs, StoreValid (OptimiseMesh bs s)) :=
  ⟨fun s2 h => TriangulateQuads_valid s s2 hwf hval h,
   fun vT nT uvT => DeDupe_preserves_validity vT nT uvT s hval hwf hunf,
   fun bs => (OptimiseMesh_valid bs s hwf hval hunf).2.1⟩

/-- Witness: the hypotheses of the stage-boundary theorem are satisfiable
and its conclusion holds at a concrete fully indexed store. -/
theorem stage_boundaries_preserve_index_validity_witness :
    (StoreWF stFull ∧ StoreValid stFull ∧ StoreUnflushed stFull) ∧
    ((∀ s2, TriangulateQuads stFull = some s2 → StoreValid s2) ∧
     (∀ vT nT uvT, StoreValid (DeDupe vT nT uvT stFull).1) ∧
     (∀ bs, StoreValid (OptimiseMesh bs stFull))) :=
  ⟨⟨by decide, by decide, by decide⟩,
   stage_boundaries_preserve_index_validity stFull (by decide) (by decide) (by decide)⟩

set_option maxHeartbeats 1600000 in
/-- C5 (amended): the optimizer's sort stage satisfies the slices.SortFunc
contract — the sorted face list is a permutation of the Morton-coded faces,
non-decreasing under the Morton-code comparison — and the optimised store's
faces carry non-decreasing Morton codes with the face count unchanged.  The
contract does not promise stability, and the tie-reversal counterexample
shows a conforming sort need not be stable. -/
theorem optimiseMesh_sorts_faces_by_morton (bs : BoundSphere) (s : Store) :
    SortFuncSpec (assignMorton bs s).faces
      (sortFacesByMorton (assignMorton bs s).faces) ∧
    ((OptimiseMesh bs s).faces.map (fun f => f.mortonCode)).Sorted (· ≤ ·) ∧
    (OptimiseMesh bs s).faces.length = s.faces.length := by
  set sorted := sortFacesByMorton (assignMorton bs s).faces with hsortedDef
  set pv := remapPass vFlushed vFlush vGet vSet (assignMorton bs s).vertices sorted
    with hpvDef
  set pn := remapPass nFlushed nFlush nGet nSet (assignMorton bs s).normals pv.2 with hpnDef
  set pu := remapPass tcFlushed tcFlush uvGet uvSet (assignMorton bs s).textureCoords pn.2
    with hpuDef
  have hOM : OptimiseMesh bs s =
      { vertices := pv.1, normals := pn.1, textureCoords := pu.1, faces := pu.2 } := rfl
  have h1 := @remapPass_preserves_obs Vertex Nat _ vFlushed vFlush vGet vSet
    (fun f => f.mortonCode)
    (fun _ _ => rfl) (fun _ _ _ => rfl) (fun _ _ => rfl) (fun _ _ => rfl) (fun _ _ => rfl)
    (fun _ => rfl) (fun _ => rfl)
    (assignMorton bs s).vertices sorted
  rw [← hpvDef] at h1
  have h2 := @remapPass_preserves_obs Normal Nat _ nFlushed nFlush nGet nSet
    (fun f => f.mortonCode)
    (fun _ _ => rfl) (fun _ _ _ => rfl) (fun _ _ => rfl) (fun _ _ => rfl) (fun _ _ => rfl)
    (fun _ => rfl) (fun _ => rfl)
    (assignMorton bs s).normals pv.2
  rw [← hpnDef] at h2
  have h3 := @remapPass_preserves_obs TextureCoord Nat _ tcFlushed tcFlush uvGet uvSet
    (fun f => f.mortonCode)
    (fun _ _ => rfl) (fun _ _ _ => rfl) (fun _ _ => rfl) (fun _ _ => rfl) (fun _ _ => rfl)
    (fun _ => rfl) (fun _ => rfl)
    (assignMorton bs s).textureCoords pn.2
  rw [← hpuDef] at h3
  have hsort : List.Sorted mortonLE sorted :=
    List.sorted_insertionSort mortonLE (assignMorton bs s).faces
  have hperm : sorted.Perm (assignMorton bs s).faces :=
    List.perm_insertionSort mortonLE (assignMorton bs s).faces
  have hgl : (assignMorton bs s).faces.length = s.faces.length := by
    obtain ⟨hg, hgEq⟩ : ∃ g : Face → Nat,
        (assignMorton bs s).faces = s.faces.map fun f => { f with mortonCode := g f } :=
      ⟨_, rfl⟩
    rw [hgEq]
    simp
  have hlenS : sorted.length = s.faces.length := hperm.length_eq.trans hgl
  have hmap : pu.2.map (fun f => f.mortonCode) = sorted.map (fun f => f.mortonCode) := by
    apply List.ext_getElem
    · rw [List.length_map, List.length_map, h3.1, h2.1, h1.1]
    · intro k hk1 hk2
      have hkS : k < sorted.length := by
        rw [List.length_map] at hk2
        exact hk2
      have hkV : k < pv.2.length := by rw [h1.1]; exact hkS
      have hkN : k < pn.2.length := by rw [h2.1]; exact hkV
      have hkU : k < pu.2.length := by
        rw [List.length_map] at hk1
        exact hk1
      rw [List.getElem_map, List.getElem_map, ← getD_lt hkU default, ← getD_lt hkS default]
      exact (h3.2 k hkN).trans ((h2.2 k hkV).trans (h1.2 k hkS))
  refine ⟨⟨hperm, hsort⟩, ?_, ?_⟩
  · rw [hOM]
    show (pu.2.map (fun f => f.mortonCode)).Sorted (· ≤ ·)
    rw [hmap]
    exact List.Pairwise.map _ (fun a b h => h) hsort
  · rw [hOM]
    show pu.2.length = s.faces.length
    rw [h3.1, h2.1, h1.1, hlenS]

/-- C2: on the well-formed, index-valid store stC2 (one triangle whose
corners reference the vertices in order 1, 2, 0) the optimizer's vertex
remap collides with its own output indices: the first-touch walk assigns
vertex 1 the new index 0, but the third first-touch event (original index 0)
rewrites every corner currently holding value 0 — including the corner
already remapped to 0 — so the face ends as [2, 1, 2] where the claim's
first-touch remap requires [0, 1, 2]; corner 0 no longer references the
attribute it referenced before the pass. -/
theorem optimiseMesh_first_touch_collision :
    (StoreWF stC2 ∧ StoreValid stC2 ∧ StoreUnflushed stC2) ∧
    (OptimiseMesh bsC2 stC2).vertices.length = stC2.vertices.length ∧
    (OptimiseMesh bsC2 stC2).faces.map (fun f => f.v) = [[2, 1, 2]] ∧
    specFirstTouchRemap (sortFacesByMorton (assignMorton bsC2 stC2).faces) = [[0, 1, 2]] ∧
    (OptimiseMesh bsC2 stC2).faces.map (fun f => f.v) ≠
      specFirstTouchRemap (sortFacesByMorton (assignMorton bsC2 stC2).faces) := by
  have hAM : assignMorton bsC2 stC2 =
      { vertices := [vA, vA, vA], normals := [nrm0, nrm0, nrm0],
        textureCoords := [tc0, tc0, tc0],
        faces := [{ faceC2 with mortonCode := 0 }] } := by
    simp only [assignMorton, stC2, bsC2, faceC2, vA]
    norm_num [List.range_succ, quantize1024, Morton3D, interleaveBits, List.getD]
  have hOM : OptimiseMesh bsC2 stC2 =
      { vertices := [vA, vA, vA], normals := [nrm0, nrm0, nrm0],
        textureCoords := [tc0, tc0, tc0],
        faces := [⟨3, [2, 1, 2], [0, 1, 2], [], [0, 1, 2], 0, "", 0, true⟩] } := by
    unfold OptimiseMesh
    rw [hAM]
    decide
  refine ⟨⟨by decide, by decide, by decide⟩, ?_, ?_, ?_, ?_⟩
  · rw [hOM]
    decide
  · rw [hOM]
    decide
  · rw [hAM]
    decide
  · rw [hOM, hAM]
    decide

/-- The source distance is the metric distance of the position vectors. -/
theorem Distance_eq_dist (a b : VertexR) : Distance a b = dist (toE a) (toE b) := by
  rw [EuclideanSpace.dist_eq, Fin.sum_univ_three]
  unfold Distance toE
  simp only [Real.dist_eq, sq_abs, Matrix.cons_val_zero, Matrix.cons_val_one,
    Matrix.head_cons, Matrix.cons_val_two, Matrix.tail_cons]
  congr 1
  ring

/-- Distances are nonnegative. -/
theorem Distance_nonneg (a b : VertexR) : 0 ≤ Distance a b :=
  Real.sqrt_nonneg _

/-- Triangle inequality for the source distance. -/
theorem Distance_triangle (a b c : VertexR) :
    Distance a c ≤ Distance a b + Distance b c := by
  rw [Distance_eq_dist, Distance_eq_dist, Distance_eq_dist]
  exact dist_triangle _ _ _

/-- One expansion step keeps the radius nonnegative, absorbs the probed
point, and keeps every point of the old sphere inside the new one. -/
theorem ritterStep_props (st : VertexR × ℝ) (p : VertexR) (hr : 0 ≤ st.2) :
    0 ≤ (ritterStep st p).2 ∧
    Distance (ritterStep st p).1 p ≤ (ritterStep st p).2 ∧
    ∀ q, Distance st.1 q ≤ st.2 → Distance (ritterStep st p).1 q ≤ (ritterStep st p).2 := by
  by_cases hd : Distance st.1 p > st.2
  · have hdpos : 0 < Distance st.1 p := lt_of_le_of_lt hr hd
    have hstep : ritterStep st p =
        (⟨st.1.X + (p.X - st.1.X) * (((st.2 + Distance st.1 p) / 2 - st.2) / Distance st.1 p),
          st.1.Y + (p.Y - st.1.Y) * (((st.2 + Distance st.1 p) / 2 - st.2) / Distance st.1 p),
          st.1.Z + (p.Z - st.1.Z) * (((st.2 + Distance st.1 p) / 2 - st.2) / Distance st.1 p),
          1, 0, 0, 0, 0⟩, (st.2 + Distance st.1 p) / 2) := by
      unfold ritterStep
      dsimp only
      rw [if_pos hd]
    rw [hstep]
    set d := Distance st.1 p with hdd
    set ratio := ((st.2 + d) / 2 - st.2) / d with hratio
    have hS : Real.sqrt ((p.X - st.1.X) * (p.X - st.1.X) + (p.Y - st.1.Y) * (p.Y - st.1.Y) +
        (p.Z - st.1.Z) * (p.Z - st.1.Z)) = d := by
      rw [hdd]
      unfold Distance
      congr 1
      ring
    have hSnn : 0 ≤ (p.X - st.1.X) * (p.X - st.1.X) + (p.Y - st.1.Y) * (p.Y - st.1.Y) +
        (p.Z - st.1.Z) * (p.Z - st.1.Z) :=
      add_nonneg (add_nonneg (mul_self_nonneg _) (mul_self_nonneg _)) (mul_self_nonneg _)
    have hne : d ≠ 0 := ne_of_gt hdpos
    have hratio_nn : 0 ≤ ratio := by
      rw [hratio]
      have h1 : 0 ≤ (st.2 + d) / 2 - st.2 := by linarith
      exact div_nonneg h1 (le_of_lt hdpos)
    have hratio_le : ratio ≤ 1 := by
      rw [hratio, div_le_one hdpos]
      linarith
    constructor
    · dsimp only
      linarith
    constructor
    · -- the probed point lands exactly on the new sphere
      have hDp : Distance
          (⟨st.1.X + (p.X - st.1.X) * ratio, st.1.Y + (p.Y - st.1.Y) * ratio,
            st.1.Z + (p.Z - st.1.Z) * ratio, 1, 0, 0, 0, 0⟩ : VertexR) p =
          (1 - ratio) * d := by
        have h1 : Distance
            (⟨st.1.X + (p.X - st.1.X) * ratio, st.1.Y + (p.Y - st.1.Y) * ratio,
              st.1.Z + (p.Z - st.1.Z) * ratio, 1, 0, 0, 0, 0⟩ : VertexR) p =
            Real.sqrt ((1 - ratio) ^ 2 * ((p.X - st.1.X) * (p.X - st.1.X) +
              (p.Y - st.1.Y) * (p.Y - st.1.Y) + (p.Z - st.1.Z) * (p.Z - st.1.Z))) := by
          unfold Distance
          dsimp only
          congr 1
          ring
        rw [h1, Real.sqrt_mul (sq_nonneg _), Real.sqrt_sq_eq_abs, hS,
          abs_of_nonneg (by linarith)]
      have hexp : (1 - ratio) * d = (st.2 + d) / 2 := by
        rw [hratio]
        field_simp
        ring
      dsimp only
      rw [hDp, hexp]
    · -- the old sphere is contained in the new one
      intro q hq
      have hDc : Distance
          (⟨st.1.X + (p.X - st.1.X) * ratio, st.1.Y + (p.Y - st.1.Y) * ratio,
            st.1.Z + (p.Z - st.1.Z) * ratio, 1, 0, 0, 0, 0⟩ : VertexR) st.1 =
          ratio * d := by
        have h1 : Distance
            (⟨st.1.X + (p.X - st.1.X) * ratio, st.1.Y + (p.Y - st.1.Y) * ratio,
              st.1.Z + (p.Z - st.1.Z) * ratio, 1, 0, 0, 0, 0⟩ : VertexR) st.1 =
            Real.sqrt (ratio ^ 2 * ((p.X - st.1.X) * (p.X - st.1.X) +
              (p.Y - st.1.Y) * (p.Y - st.1.Y) + (p.Z - st.1.Z) * (p.Z - st.1.Z))) := by
          unfold Distance
          dsimp only
          congr 1
          ring
        rw [h1, Real.sqrt_mul (sq_nonneg _), Real.sqrt_sq_eq_abs, hS,
          abs_of_nonneg hratio_nn]
      have htri := Distance_triangle
        (⟨st.1.X + (p.X - st.1.X) * ratio, st.1.Y + (p.Y - st.1.Y) * ratio,
          st.1.Z + (p.Z - st.1.Z) * ratio, 1, 0, 0, 0, 0⟩ : VertexR) st.1 q
      rw [hDc] at htri
      have hrd : ratio * d = (st.2 + d) / 2 - st.2 := by
        rw [hratio]
        field_simp
        ring
      dsimp only
      rw [hrd] at htri
      linarith
  · have hstep : ritterStep st p = st := by
      unfold ritterStep
      dsimp only
      rw [if_neg hd]
    rw [hstep]
    exact ⟨hr, le_of_not_lt hd, fun q h => h⟩

/-- The expansion sweep keeps the radius nonnegative, never loses points of
the starting sphere, and ends with every swept point inside. -/
theorem ritter_loop_contains :
    ∀ (l : List VertexR) (st : VertexR × ℝ), 0 ≤ st.2 →
      0 ≤ (l.foldl ritterStep st).2 ∧
      (∀ q, Distance st.1 q ≤ st.2 →
        Distance (l.foldl ritterStep st).1 q ≤ (l.foldl ritterStep st).2) ∧
      ∀ p ∈ l, Distance (l.foldl ritterStep st).1 p ≤ (l.foldl ritterStep st).2 := by
  intro l
  induction l with
  | nil =>
    intro st hr
    exact ⟨hr, fun q h => h, fun p hp => absurd hp (List.not_mem_nil p)⟩
  | cons p l ih =>
    intro st hr
    obtain ⟨h0, hpin, hmono⟩ := ritterStep_props st p hr
    obtain ⟨ih0, ihmono, ihall⟩ := ih (ritterStep st p) h0
    rw [List.foldl_cons]
    refine ⟨ih0, fun q hq => ihmono q (hmono q hq), fun q hq => ?_⟩
    rcases List.mem_cons.mp hq with rfl | hq2
    · exact ihmono q hpin
    · exact ihall q hq2

/-- C6: the Ritter bounding sphere contains every input point — the distance
from the returned center to each point is at most the returned radius plus
any nonnegative epsilon — and on the empty point set it returns the
degenerate sphere at the origin with radius 0 as a defined result. -/
theorem ritter_sphere_contains (points : List VertexR) (eps : ℝ) (heps : 0 ≤ eps) :
    (∀ p ∈ points, Distance (RitterBoundingSphere points).1 p ≤
      (RitterBoundingSphere points).2 + eps) ∧
    (points = [] → RitterBoundingSphere points = (⟨0, 0, 0, 0, 0, 0, 0, 0⟩, 0)) := by
  constructor
  · intro p hp
    have hne : ¬ points.length = 0 := by
      intro h0
      rw [List.length_eq_zero] at h0
      subst h0
      exact absurd hp (List.not_mem_nil p)
    have main : ∀ (st : VertexR × ℝ), 0 ≤ st.2 →
        Distance ((points.foldl ritterStep st).1) p ≤ (points.foldl ritterStep st).2 + eps := by
      intro st h0
      obtain ⟨_, _, hall⟩ := ritter_loop_contains points st h0
      have := hall p hp
      linarith
    unfold RitterBoundingSphere
    rw [if_neg hne]
    dsimp only
    exact main _ (div_nonneg (Distance_nonneg _ _) (by norm_num))
  · intro h
    subst h
    rfl

/-- Witness: the containment theorem applied to the empty point set at
epsilon 0 yields the defined degenerate sphere. -/
theorem ritter_sphere_contains_witness :
    0 ≤ (0 : ℝ) ∧
    ((∀ p ∈ ([] : List VertexR), Distance (RitterBoundingSphere []).1 p ≤
      (RitterBoundingSphere []).2 + 0) ∧
     (([] : List VertexR) = [] →
      RitterBoundingSphere [] = (⟨0, 0, 0, 0, 0, 0, 0, 0⟩, 0))) :=
  ⟨le_refl 0, ritter_sphere_contains [] 0 (le_refl 0)⟩

/-- C8: a quad passes validation exactly when the claim's two tests pass:
the planarity test fails exactly when the absolute dot product of the unit
normals of triangles (v0,v1,v2) and (v0,v2,v3) is below 0.999, and the
convexity test fails exactly when the four edge-to-edge cross-product
z-components in the XY projection do not all share the same strict sign. -/
theorem validateQuad_iff_spec (p0 p1 p2 p3 : VertexR) :
    ValidateQuadOK p0 p1 p2 p3 ↔
      ¬ specPlanarFails p0 p1 p2 p3 ∧ ¬ specConvexFails p0 p1 p2 p3 := by
  unfold ValidateQuadOK specPlanarFails specConvexFails triangleUnitNormal
  dsimp only
  constructor
  · rintro ⟨h1, h2⟩
    exact ⟨h1, not_not_intro h2⟩
  · rintro ⟨h1, h2⟩
    exact ⟨h1, not_not.mp h2⟩

/-- The zero normal defeats the normalisation: the length computed is 0, the
divisions leave the zero vector, and its length is 0, not 1 within 1e-5. -/
theorem normalize_zero_counterexample :
    normalize ⟨0, 0, 0, 0⟩ = ⟨0, 0, 0, 0⟩ ∧
    ¬ |normalLenR (normalize ⟨0, 0, 0, 0⟩) - 1| ≤ 1 / 100000 := by
  have h1 : normalize (⟨0, 0, 0, 0⟩ : NormalR) = ⟨0, 0, 0, 0⟩ := by
    unfold normalize
    simp
  refine ⟨h1, ?_⟩
  rw [h1]
  unfold normalLenR
  norm_num [Real.sqrt_zero]

/-- C9 (amended): a nonzero normal has length exactly 1 after normalisation
(within the claimed 1e-5 tolerance in particular), and stored normal values
are preserved by the later stages: triangulation leaves the normal array
untouched, deduplication keeps a sublist of it, and optimisation of a
well-formed valid store keeps every rebuilt normal an element of the input
array.  The zero normal is the counterexample to the unconditional claim. -/
theorem normalize_unit_length_amended :
    (∀ n : NormalR, n.X * n.X + n.Y * n.Y + n.Z * n.Z ≠ 0 →
      normalLenR (normalize n) = 1 ∧ |normalLenR (normalize n) - 1| ≤ 1 / 100000) ∧
    (∀ s s2 : Store, TriangulateQuads s = some s2 → s2.normals = s.normals) ∧
    (∀ vT nT uvT s, (DeDupe vT nT uvT s).1.normals.Sublist s.normals) ∧
    (∀ bs s, StoreWF s → StoreValid s → StoreUnflushed s →
      ∀ a ∈ (OptimiseMesh bs s).normals, a ∈ s.normals) := by
  refine ⟨?_, ?_, ?_, ?_⟩
  · intro n hn
    have hS : 0 < n.X * n.X + n.Y * n.Y + n.Z * n.Z :=
      lt_of_le_of_ne
        (add_nonneg (add_nonneg (mul_self_nonneg _) (mul_self_nonneg _)) (mul_self_nonneg _))
        (Ne.symm hn)
    have hL : Real.sqrt (n.X * n.X + n.Y * n.Y + n.Z * n.Z) ≠ 0 :=
      ne_of_gt (Real.sqrt_pos.mpr hS)
    have h1 : normalLenR (normalize n) = 1 := by
      unfold normalLenR normalize
      dsimp only
      have hrad : n.X / Real.sqrt (n.X * n.X + n.Y * n.Y + n.Z * n.Z) *
            (n.X / Real.sqrt (n.X * n.X + n.Y * n.Y + n.Z * n.Z)) +
          n.Y / Real.sqrt (n.X * n.X + n.Y * n.Y + n.Z * n.Z) *
            (n.Y / Real.sqrt (n.X * n.X + n.Y * n.Y + n.Z * n.Z)) +
          n.Z / Real.sqrt (n.X * n.X + n.Y * n.Y + n.Z * n.Z) *
            (n.Z / Real.sqrt (n.X * n.X + n.Y * n.Y + n.Z * n.Z)) =
          (n.X * n.X + n.Y * n.Y + n.Z * n.Z) /
            (Real.sqrt (n.X * n.X + n.Y * n.Y + n.Z * n.Z) *
              Real.sqrt (n.X * n.X + n.Y * n.Y + n.Z * n.Z)) := by
        ring
      rw [hrad, Real.mul_self_sqrt (le_of_lt hS), div_self hn, Real.sqrt_one]
    refine ⟨h1, ?_⟩
    rw [h1]
    norm_num
  · intro s s2 h
    unfold TriangulateQuads at h
    cases hres : triangulateLoop (2 * countQuads s.faces + s.faces.length) [] s.faces with
    | none =>
      rw [hres] at h
      cases h
    | some fs =>
      rw [hres] at h
      simp only [Option.some.injEq] at h
      subst h
      rfl
  · intro vT nT uvT s
    simp only [DeDupe]
    exact (@dedupeStage_frame Normal _ nFlushed nFlush nFlushed (normalClose nT) nGet nSet
      (fun _ => rfl) (fun _ _ _ => rfl) (fun _ _ => rfl) (fun _ => rfl) (fun _ => rfl)
      s.normals _).1
  · intro bs s hwf hval hunf
    exact (OptimiseMesh_valid bs s hwf hval hunf).2.2.2.2.1

/-- Witness: the amended normalisation theorem applied to the unit normal
(0,0,1) and to a concrete store at each later stage. -/
theorem normalize_unit_length_amended_witness :
    ((⟨0, 0, 1, 0⟩ : NormalR).X * (⟨0, 0, 1, 0⟩ : NormalR).X +
      (⟨0, 0, 1, 0⟩ : NormalR).Y * (⟨0, 0, 1, 0⟩ : NormalR).Y +
      (⟨0, 0, 1, 0⟩ : NormalR).Z * (⟨0, 0, 1, 0⟩ : NormalR).Z ≠ 0 ∧
     TriangulateQuads stFull = some stFull ∧
     StoreWF stFull ∧ StoreValid stFull ∧ StoreUnflushed stFull) ∧
    (normalLenR (normalize ⟨0, 0, 1, 0⟩) = 1 ∧
     |normalLenR (normalize ⟨0, 0, 1, 0⟩) - 1| ≤ 1 / 100000) ∧
    stFull.normals = stFull.normals ∧
    (∀ a ∈ (OptimiseMesh bsC2 stFull).normals, a ∈ stFull.normals) :=
  ⟨⟨by norm_num, by decide, by decide, by decide, by decide⟩,
   normalize_unit_length_amended.1 ⟨0, 0, 1, 0⟩ (by norm_num),
   normalize_unit_length_amended.2.1 stFull stFull (by decide),
   normalize_unit_length_amended.2.2.2 bsC2 stFull (by decide) (by decide) (by decide)⟩

end Mshx
